import Mathlib

set_option maxRecDepth 8000

/-!
Verification development for the route-planning program `projekt2.cpp`.

The program keeps a directed weighted graph as
`std::map<std::string, std::set<std::pair<std::string,int>>>`, runs a
lazy Dijkstra relaxation whose frontier is a
`std::set<std::pair<int,std::string>>`, reconstructs routes by walking
predecessor links backwards, and resolves a batch of queries.

The embedding below mirrors those containers as strictly sorted
association lists (a `std::map` / `std::set` iterated in order is exactly
such a list), machine `int` as `Int` with the explicit sentinel
`INTMAX = 2147483647` (`std::numeric_limits<int>::max()`), and the
potentially diverging loops (the Dijkstra `while`, the predecessor walk)
as fuel-indexed recursions returning `Option`, where `none` stands for a
run that does not terminate normally (divergence or an uncaught
exception).  Parsing of input lines is an external collaborator in the
design; rows and queries therefore enter the model already split into
fields, with the guarantee (used as `ValidRows`) that whitespace-split
tokens are non-empty strings.
-/

/-- Outgoing edge set of one node: `std::set<std::pair<std::string,int>>`
iterated in ascending order, i.e. a strictly sorted list of
(destination, weight) pairs. -/
abbrev EdgeSet := List (String × Int)

/-- The graph type of `projekt2.cpp` line 15:
`std::map<std::string, std::set<std::pair<std::string,int>>>`,
as a strictly key-sorted association list. -/
abbrev Graph := List (String × EdgeSet)

/-- One record of the Dijkstra result map: (distance, predecessor),
`std::pair<int, std::string>`. -/
abbrev PEntry := Int × String

/-- The Dijkstra result map `std::map<std::string, std::pair<int,std::string>>`. -/
abbrev Paths := List (String × PEntry)

/-- The frontier `std::set<std::pair<int,std::string>>`: sorted list of
(distance, node) pairs ordered by distance first, node id second. -/
abbrev Queue := List (Int × String)

/-- `std::numeric_limits<int>::max()`, the "unreached" sentinel. -/
def INTMAX : Int := 2147483647

/-- Lexicographic comparison of character lists by code point, the
order `std::string::operator<` induces (bytewise for the ASCII ids the
program handles). -/
def listLtb : List Char → List Char → Bool
  | [], [] => false
  | [], _ :: _ => true
  | _ :: _, [] => false
  | a :: as, b :: bs =>
    decide (a.toNat < b.toNat) || (a.toNat == b.toNat && listLtb as bs)

/-- `std::string` comparison. -/
def strLtb (a b : String) : Bool :=
  listLtb a.data b.data

/-- Strict order of `std::pair<std::string,int>`: lexicographic,
string component first. -/
def edgeLtb (a b : String × Int) : Bool :=
  strLtb a.1 b.1 || (a.1 == b.1 && decide (a.2 < b.2))

/-- Strict order of `std::pair<int,std::string>`: lexicographic,
distance first, node id second (the deterministic tie-break). -/
def qLtb (a b : Int × String) : Bool :=
  decide (a.1 < b.1) || (a.1 == b.1 && strLtb a.2 b.2)

/-- `std::set::insert` on an ascending edge list: place the new pair at
its ordered position, absorb an exact duplicate. -/
def setInsertEdge : EdgeSet → (String × Int) → EdgeSet
  | [], e => [e]
  | x :: xs, e =>
    if edgeLtb e x then e :: x :: xs
    else if e = x then x :: xs
    else x :: setInsertEdge xs e

/-- `std::set::insert` on the frontier. -/
def qInsert : Queue → (Int × String) → Queue
  | [], e => [e]
  | x :: xs, e =>
    if qLtb e x then e :: x :: xs
    else if e = x then x :: xs
    else x :: qInsert xs e

/-- First-match lookup in an association list: the access pattern of
`std::map::find` / `count` once the map is viewed as its sorted entry
list. -/
def mlookup {α : Type} : List (String × α) → String → Option α
  | [], _ => none
  | kv :: rest, k => if k = kv.1 then some kv.2 else mlookup rest k

/-- Sorted insertion of a key with a default value when the key is
absent; an existing key is left unchanged.  This is
`std::map::operator[]` used only for its key-creating effect. -/
def mins {α : Type} : List (String × α) → String → α → List (String × α)
  | [], k, d => [(k, d)]
  | kv :: rest, k, d =>
    if strLtb k kv.1 then (k, d) :: kv :: rest
    else if k = kv.1 then kv :: rest
    else kv :: mins rest k d

/-- Key list of an association list. -/
def keysOf {α : Type} (l : List (String × α)) : List String :=
  l.map Prod.fst

/-- Keys strictly ascending: the `std::map` representation invariant. -/
def KSorted {α : Type} (l : List (String × α)) : Prop :=
  List.Pairwise (fun a b => strLtb a.1 b.1 = true) l

/-- `graph[source].insert({destination, distance})` (line 41):
`std::map::operator[]` creates the key with an empty set if absent, then
the edge is inserted into the set. -/
def graphAddEdge : Graph → String → (String × Int) → Graph
  | [], s, e => [(s, [e])]
  | (k, es) :: rest, s, e =>
    if strLtb s k then (s, [e]) :: (k, es) :: rest
    else if s = k then (k, setInsertEdge es e) :: rest
    else (k, es) :: graphAddEdge rest s e

/-- `graph[destination];` (line 42): ensure the key exists, with an empty
edge set when it is new. -/
def graphEnsure (g : Graph) (s : String) : Graph :=
  mins g s []

/-- Body of the `loadFromFile` read loop for one well-formed row
(source, destination, weight):
`graph[source].insert({destination, distance}); graph[destination];`
(lines 41-42). -/
def loadRow (g : Graph) (r : String × String × Int) : Graph :=
  graphEnsure (graphAddEdge g r.1 r.2) r.2.1

/-- `loadFromFile` (lines 23-47) after the external line parsing: the
rows are the well-formed lines in file order; malformed lines were
already discarded by the parsing collaborator. -/
def loadFromFile (rows : List (String × String × Int)) : Graph :=
  rows.foldl loadRow []

/-- `std::map::find`-style lookup in the graph. -/
def lookupGraph (g : Graph) (k : String) : Option EdgeSet :=
  mlookup g k

/-- `graph.count(id) > 0`. -/
def hasNode (g : Graph) (k : String) : Bool :=
  (lookupGraph g k).isSome

/-- Edge set of a node, empty if the node is unknown. -/
def edgesOf (g : Graph) (k : String) : EdgeSet :=
  (lookupGraph g k).getD []

/-- Lookup in the Dijkstra result map. -/
def lookupP (p : Paths) (k : String) : Option PEntry :=
  mlookup p k

/-- Sorted insertion of a fresh key into the result map (the position a
`std::map` would give it); existing keys are left unchanged. -/
def pathsIns (p : Paths) (k : String) (pe : PEntry) : Paths :=
  mins p k pe

/-- `paths[k]` read access: `std::map::operator[]` returns the stored
record, value-initialising a missing key to `(0, "")` first.  Returns
the record together with the possibly extended map. -/
def pathsGet (p : Paths) (k : String) : PEntry × Paths :=
  match lookupP p k with
  | some pe => (pe, p)
  | none => ((0, ""), pathsIns p k (0, ""))

/-- `paths[k] = pe` on a key that is present: replace its record in
place (a missing key is inserted, as `operator[]` would). -/
def pathsSet : Paths → String → PEntry → Paths
  | [], k, pe => [(k, pe)]
  | kv :: rest, k, pe =>
    if kv.1 = k then (k, pe) :: rest else kv :: pathsSet rest k pe

/-- Initialisation loop of `Dijkstra` (lines 96-103): every graph key
gets `(0, "")` if it is the start node, `(INT_MAX, "")` otherwise. -/
def initPaths (g : Graph) (start : String) : Paths :=
  g.map (fun kv => (kv.1, if kv.1 = start then ((0 : Int), "") else (INTMAX, "")))

/-- Relaxation of one outgoing edge `e = (neighbor, weight)` of `cur`
(lines 113-120): `newDistance = paths[current].first + weight`; if it
beats `paths[neighbor].first`, the neighbor's distance and predecessor
are overwritten and `(newDistance, neighbor)` joins the frontier.  Both
`operator[]` reads value-initialise a missing key, as in the source. -/
def relaxOne (cur : String) (e : String × Int) (pq : Paths × Queue) : Paths × Queue :=
  let rc := pathsGet pq.1 cur
  let newD := rc.1.1 + e.2
  let rn := pathsGet rc.2 e.1
  if newD < rn.1.1 then
    (pathsSet rn.2 e.1 (newD, cur), qInsert pq.2 (newD, e.1))
  else (rn.2, pq.2)

/-- The inner `for` loop over `graph.at(current)` (lines 113-121). -/
def relaxAll (cur : String) (es : EdgeSet) (p : Paths) (q : Queue) : Paths × Queue :=
  es.foldl (fun pq e => relaxOne cur e pq) (p, q)

/-- The `while (!queue.empty())` loop of `Dijkstra` (lines 108-126),
fuel-indexed: pop the least (distance, node) pair; if the graph knows
the node, relax its edges, else `break` (returning the map built so
far).  `none` models a run that exhausts the fuel, i.e. would not have
terminated within that many iterations. -/
def dijkstraLoop (g : Graph) : Nat → Paths → Queue → Option Paths
  | _, p, [] => some p
  | 0, _, _ :: _ => none
  | Nat.succ f, p, e :: rest =>
    match lookupGraph g e.2 with
    | some es =>
      let pq := relaxAll e.2 es p rest
      dijkstraLoop g f pq.1 pq.2
    | none => some p

/-- Entries of the result map summed (as truncations to `Nat`), used to
size the fuel: every successful relaxation strictly decreases some
distance, so the loop makes progress. -/
def sumD (p : Paths) : Nat :=
  (p.map (fun kv => kv.2.1.toNat)).sum

/-- Fuel that provably suffices for every run over a loaded graph with
non-negative weights. -/
def dFuel (g : Graph) : Nat :=
  2 * g.length * INTMAX.toNat + 2

/-- `Dijkstra(graph, start, end)` (lines 93-129).  The `finish` argument
mirrors the unused `end` parameter of the source.  Initialise the
records, seed the frontier with `(0, start)`, and loop. -/
def Dijkstra (g : Graph) (start _finish : String) : Option Paths :=
  dijkstraLoop g (dFuel g) (initPaths g start) [((0 : Int), start)]

/-- Backward walk of `createResultsMessage` (lines 145-151):
`while (!current.empty()) { path.push_back(current); current = paths.at(current).second; }`.
`none` models either the `std::out_of_range` of `at` on a missing key or
a walk that never reaches the empty-id sentinel. -/
def walkBack : Nat → Paths → String → Option (List String)
  | 0, _, cur => if cur = "" then some [] else none
  | Nat.succ f, p, cur =>
    if cur = "" then some []
    else
      match lookupP p cur with
      | none => none
      | some pe => (walkBack f p pe.2).map (cur :: ·)

/-- The first-match scan of lines 158-165: `distance` starts at 0 and
takes the weight of the first edge of `cur` whose destination matches
(iteration order of the `std::set` is ascending (destination, weight)). -/
def legWeight (es : EdgeSet) (next : String) : Int :=
  match es.find? (fun nb => nb.1 == next) with
  | some nb => nb.2
  | none => 0

/-- The leg-emission loop of lines 155-167 over the source-to-destination
node list: one (from, to, weight) triple per consecutive pair, the
weight found by `legWeight` in `graph.at(from)`.  `none` models the
out-of-range access on an empty list (`path.size() - 1` underflows
`size_t`) or a `graph.at` throw. -/
def legsOf (g : Graph) : List String → Option (List (String × String × Int))
  | [] => none
  | [_] => some []
  | x :: y :: rest =>
    match lookupGraph g x with
    | none => none
    | some es => (legsOf g (y :: rest)).map ((x, y, legWeight es y) :: ·)

/-- Total of the per-leg distances of a reconstructed leg list. -/
def legsSum (legs : List (String × String × Int)) : Int :=
  (legs.map (fun t => t.2.2)).sum

/-- Rendering of the per-leg lines of `createResultsMessage`. -/
def renderLegs : List (String × String × Int) → String
  | [] => ""
  | (a, b, w) :: rest => a ++ " --> " ++ b ++ " " ++ toString w ++ " km\n" ++ renderLegs rest

/-- `createResultsMessage` (lines 141-172): header, backward walk,
reversal, leg emission, trailing blank line. -/
def createResultsMessage (start finish0 : String) (total : Int) (g : Graph) (p : Paths) :
    Option String :=
  match walkBack (p.length + 1) p finish0 with
  | none => none
  | some l =>
    match legsOf g l.reverse with
    | none => none
    | some legs =>
      some ("Trasa: " ++ start ++ " --> " ++ finish0 ++ " (" ++ toString total ++ " km):\n"
        ++ renderLegs legs ++ "\n")

/-- The "Brak informacji o polaczeniu" message of line 233. -/
def brakMsg (s e : String) : String :=
  "Trasa: " ++ s ++ " --> " ++ e ++ " (Brak informacji o polaczeniu)\n\n"

/-- The "Trasa niemozliwa do wyznaczenia" message of line 240. -/
def niemozliwaMsg (s e : String) : String :=
  "Trasa: " ++ s ++ " --> " ++ e ++ " (Trasa niemozliwa do wyznaczenia)\n\n"

/-- One iteration of the query loop of `main` (lines 220-241), with an
invocation count read off the control flow: `Dijkstra` is called on
line 230 before any node-existence check, so every well-formed query
performs exactly one engine invocation.  The guard of line 235 reads
`paths[end]` through `operator[]` (value-initialising a missing key),
which makes its second conjunct `paths.count(end) > 0` always true; the
resolved branch re-reads the same record as the total distance. -/
def resolveQueryCounted (g : Graph) (s e : String) : Option String × Nat :=
  match Dijkstra g s e with
  | none => (none, 1)
  | some m =>
    if hasNode g s = false || hasNode g e = false then (some (brakMsg s e), 1)
    else
      let re := pathsGet m e
      if re.1.1 ≠ INTMAX then (createResultsMessage s e re.1.1 g re.2, 1)
      else (some (niemozliwaMsg s e), 1)

/-- The message written for one query. -/
def resolveQuery (g : Graph) (s e : String) : Option String :=
  (resolveQueryCounted g s e).1

/-- The whole query loop of `main`: one message appended per parsed
query line, in order.  `none` propagates a per-query crash or
divergence, which is the only way the loop stops early. -/
def resolveQueries (g : Graph) : List (String × String) → Option (List String)
  | [] => some []
  | (s, e) :: rest =>
    match resolveQuery g s e with
    | none => none
    | some msg => (resolveQueries g rest).map (msg :: ·)

/-- Existence of a directed path from `s` to `v` of total weight `d`:
the empty path gives `Reach g s s 0`, and a path may be extended by any
outgoing edge of its endpoint. -/
inductive Reach (g : Graph) (s : String) : String → Int → Prop
  | refl : Reach g s s 0
  | step {u v : String} {w d : Int} :
      Reach g s u d → (v, w) ∈ edgesOf g u → Reach g s v (d + w)

/-- Graph keys strictly ascending (the `std::map` invariant). -/
def SortedKeys (g : Graph) : Prop :=
  KSorted g

/-- Every edge set strictly ascending (the `std::set` invariant). -/
def SortedEdges (g : Graph) : Prop :=
  ∀ kv ∈ g, List.Pairwise (fun a b => edgeLtb a b = true) kv.2

/-- Every edge destination is a key of the graph (the invariant that
line 42 maintains). -/
def ClosedG (g : Graph) : Prop :=
  ∀ kv ∈ g, ∀ e ∈ kv.2, hasNode g e.1 = true

/-- All edge weights non-negative (the data model of the design). -/
def NonnegG (g : Graph) : Prop :=
  ∀ kv ∈ g, ∀ e ∈ kv.2, 0 ≤ e.2

/-- No node id is the empty string (node ids are whitespace-split
tokens, hence non-empty; the backward walk uses "" as its sentinel). -/
def NoEmptyIds (g : Graph) : Prop :=
  ∀ kv ∈ g, kv.1 ≠ ""

/-- Well-formedness of parsed edge rows: ids non-empty (they are
whitespace-split tokens) and weights non-negative (the design's data
model). -/
def ValidRows (rows : List (String × String × Int)) : Prop :=
  ∀ r ∈ rows, r.1 ≠ "" ∧ r.2.1 ≠ "" ∧ 0 ≤ r.2.2

/-- Distance recorded for a node, `INTMAX` when the node has no record. -/
def dOf (p : Paths) (v : String) : Int :=
  match mlookup p v with
  | some pe => pe.1
  | none => INTMAX

/-- The backward predecessor walk from `v` terminates: either `v`'s
record carries the empty-predecessor sentinel, or its predecessor's walk
terminates.  This is exactly the termination of the `while` loop of
lines 148-151 started at `v`. -/
inductive AccPred (p : Paths) : String → Prop
  | base {v : String} {pe : PEntry} : mlookup p v = some pe → pe.2 = "" → AccPred p v
  | step {v : String} {pe : PEntry} : mlookup p v = some pe → pe.2 ≠ "" →
      AccPred p pe.2 → AccPred p v

/-- `x` lies on the predecessor chain starting at `v` (inclusive). -/
inductive PredStar (p : Paths) : String → String → Prop
  | refl (v : String) : PredStar p v v
  | step {v x : String} {pe : PEntry} : mlookup p v = some pe → pe.2 ≠ "" →
      PredStar p pe.2 x → PredStar p v x

/-- The list `l` is the node sequence the backward walk of lines 148-151
collects starting from `v`: `v` first, then its predecessor chain, ending
at the node whose record has the empty predecessor. -/
inductive PChain (p : Paths) : String → List String → Prop
  | last {v : String} {pe : PEntry} : mlookup p v = some pe → pe.2 = "" →
      PChain p v [v]
  | cons {v : String} {pe : PEntry} {l : List String} : mlookup p v = some pe →
      pe.2 ≠ "" → PChain p pe.2 l → PChain p v (v :: l)

/-- Well-formedness of the graph a run works on, together with the
start node being known.  `loadFromFile` establishes all of it for
well-formed rows. -/
structure GOK (g : Graph) (s : String) : Prop where
  sorted : KSorted g
  esorted : SortedEdges g
  closed : ClosedG g
  nonneg : NonnegG g
  noempty : NoEmptyIds g
  srcnode : hasNode g s = true

/-- One node's relaxation obligation inside the main loop: either the
frontier still holds an entry for `u`, or all its outgoing edges are
relaxed with respect to the current records. -/
def DqAt (g : Graph) (p : Paths) (q : Queue) (u : String) : Prop :=
  (∃ e ∈ q, e.2 = u) ∨ ∀ vw ∈ edgesOf g u, dOf p vw.1 ≤ dOf p u + vw.2

/-- Core invariant of the Dijkstra loop state (record map `p`, frontier
`q`) for graph `g` and start node `s`. -/
structure DInvC (g : Graph) (s : String) (p : Paths) (q : Queue) : Prop where
  keys : keysOf p = keysOf g
  bounds : ∀ kv ∈ p, 0 ≤ kv.2.1 ∧ kv.2.1 ≤ INTMAX
  src0 : mlookup p s = some (0, "")
  unreachpred : ∀ kv ∈ p, kv.2.2 = "" → kv.1 ≠ s → kv.2.1 = INTMAX
  qkeys : ∀ e ∈ q, hasNode g e.2 = true
  reach : ∀ kv ∈ p, kv.2.1 < INTMAX → Reach g s kv.1 kv.2.1
  jrel : ∀ kv ∈ p, kv.2.2 ≠ "" → ∃ w pe, (kv.1, w) ∈ edgesOf g kv.2.2 ∧
      mlookup p kv.2.2 = some pe ∧ pe.1 + w ≤ kv.2.1 ∧ kv.2.1 < INTMAX
  acc : ∀ kv ∈ p, AccPred p kv.1

/-- No tense edge: every edge is relaxed with respect to the final
records.  This is what an emptied frontier guarantees. -/
def NoTense (g : Graph) (p : Paths) : Prop :=
  ∀ u, hasNode g u = true → ∀ vw ∈ edgesOf g u, dOf p vw.1 ≤ dOf p u + vw.2

/-- Strictly ascending edge set: the `std::set` representation invariant. -/
def ESorted (es : EdgeSet) : Prop :=
  List.Pairwise (fun a b => edgeLtb a b = true) es

/-- Strictly ascending frontier: the `std::set<std::pair<int,std::string>>`
representation invariant, ordered by (distance, node id). -/
def QSorted (q : Queue) : Prop :=
  List.Pairwise (fun a b => qLtb a b = true) q


theorem listLtb_irrefl (l : List Char) : listLtb l l = false := by
  induction l with
  | nil => rfl
  | cons a as ih => simp [listLtb, ih]

theorem listLtb_trans : ∀ {a b c : List Char},
    listLtb a b = true → listLtb b c = true → listLtb a c = true
  | [], _ :: _, _ :: _, _, _ => rfl
  | a :: as, b :: bs, c :: cs, h1, h2 => by
    simp only [listLtb, Bool.or_eq_true, Bool.and_eq_true, decide_eq_true_eq,
      beq_iff_eq] at h1 h2 ⊢
    rcases h1 with h1 | ⟨h1e, h1r⟩
    · rcases h2 with h2 | ⟨h2e, h2r⟩
      · exact Or.inl (Nat.lt_trans h1 h2)
      · exact Or.inl (h2e ▸ h1)
    · rcases h2 with h2 | ⟨h2e, h2r⟩
      · exact Or.inl (h1e ▸ h2)
      · exact Or.inr ⟨h1e.trans h2e, listLtb_trans h1r h2r⟩

theorem char_toNat_inj {a b : Char} (h : a.toNat = b.toNat) : a = b := by
  have : a.val = b.val := by
    unfold Char.toNat at h
    exact UInt32.ext h
  exact Char.eq_of_val_eq this

theorem listLtb_eq_of_not : ∀ {a b : List Char},
    listLtb a b = false → listLtb b a = false → a = b
  | [], [], _, _ => rfl
  | [], _ :: _, h1, _ => by simp [listLtb] at h1
  | _ :: _, [], _, h2 => by simp [listLtb] at h2
  | a :: as, b :: bs, h1, h2 => by
    simp only [listLtb, Bool.or_eq_false_iff, Bool.and_eq_false_iff,
      decide_eq_false_iff_not, beq_eq_false_iff_ne, ne_eq] at h1 h2
    have hab : a = b := char_toNat_inj (by omega)
    rcases h1.2 with h | h
    · exact absurd (congrArg Char.toNat hab) h
    · rcases h2.2 with h' | h'
      · exact absurd (congrArg Char.toNat hab.symm) h'
      · exact hab ▸ congrArg (a :: ·) (listLtb_eq_of_not h h')

theorem strLtb_irrefl (s : String) : strLtb s s = false :=
  listLtb_irrefl s.data

theorem strLtb_trans {a b c : String} (h1 : strLtb a b = true)
    (h2 : strLtb b c = true) : strLtb a c = true :=
  listLtb_trans h1 h2

theorem strLtb_eq_of_not {a b : String} (h1 : strLtb a b = false)
    (h2 : strLtb b a = false) : a = b := by
  cases a; cases b
  exact congrArg String.mk (listLtb_eq_of_not h1 h2)

theorem strLtb_ne {a b : String} (h : strLtb a b = true) : a ≠ b := by
  intro he
  rw [he, strLtb_irrefl] at h
  exact Bool.false_ne_true h

theorem strLtb_asymm {a b : String} (h : strLtb a b = true) : strLtb b a = false := by
  by_contra hc
  have h2 := eq_true_of_ne_false hc
  have h3 := strLtb_trans h h2
  rw [strLtb_irrefl] at h3
  exact Bool.false_ne_true h3

theorem strLtb_total {a b : String} (h : a ≠ b) :
    strLtb a b = true ∨ strLtb b a = true := by
  rcases hab : strLtb a b with _ | _
  · rcases hba : strLtb b a with _ | _
    · exact absurd (strLtb_eq_of_not hab hba) h
    · exact Or.inr rfl
  · exact Or.inl rfl

theorem edgeLtb_irrefl (e : String × Int) : edgeLtb e e = false := by
  simp [edgeLtb, strLtb_irrefl]

theorem edgeLtb_trans {a b c : String × Int} (h1 : edgeLtb a b = true)
    (h2 : edgeLtb b c = true) : edgeLtb a c = true := by
  simp only [edgeLtb, Bool.or_eq_true, Bool.and_eq_true, beq_iff_eq,
    decide_eq_true_eq] at h1 h2 ⊢
  rcases h1 with h1 | ⟨h1e, h1i⟩
  · rcases h2 with h2 | ⟨h2e, _⟩
    · exact Or.inl (strLtb_trans h1 h2)
    · exact Or.inl (h2e ▸ h1)
  · rcases h2 with h2 | ⟨h2e, h2i⟩
    · exact Or.inl (h1e ▸ h2)
    · exact Or.inr ⟨h1e.trans h2e, h1i.trans h2i⟩

theorem edgeLtb_eq_of_not {a b : String × Int} (h1 : edgeLtb a b = false)
    (h2 : edgeLtb b a = false) : a = b := by
  simp only [edgeLtb, Bool.or_eq_false_iff, Bool.and_eq_false_iff,
    decide_eq_false_iff_not, beq_eq_false_iff_ne, ne_eq, not_lt] at h1 h2
  have hs : a.1 = b.1 := strLtb_eq_of_not h1.1 h2.1
  rcases h1.2 with h | h
  · exact absurd hs h
  · rcases h2.2 with h' | h'
    · exact absurd hs.symm h'
    · exact Prod.ext hs (le_antisymm h' h)

theorem qLtb_irrefl (e : Int × String) : qLtb e e = false := by
  simp [qLtb, strLtb_irrefl]

theorem qLtb_trans {a b c : Int × String} (h1 : qLtb a b = true)
    (h2 : qLtb b c = true) : qLtb a c = true := by
  simp only [qLtb, Bool.or_eq_true, Bool.and_eq_true, beq_iff_eq,
    decide_eq_true_eq] at h1 h2 ⊢
  rcases h1 with h1 | ⟨h1e, h1s⟩
  · rcases h2 with h2 | ⟨h2e, _⟩
    · exact Or.inl (h1.trans h2)
    · exact Or.inl (h2e ▸ h1)
  · rcases h2 with h2 | ⟨h2e, h2s⟩
    · exact Or.inl (h1e ▸ h2)
    · exact Or.inr ⟨h1e.trans h2e, strLtb_trans h1s h2s⟩

theorem qLtb_eq_of_not {a b : Int × String} (h1 : qLtb a b = false)
    (h2 : qLtb b a = false) : a = b := by
  simp only [qLtb, Bool.or_eq_false_iff, Bool.and_eq_false_iff,
    decide_eq_false_iff_not, beq_eq_false_iff_ne, ne_eq, not_lt] at h1 h2
  have hi : a.1 = b.1 := le_antisymm h2.1 h1.1
  rcases h1.2 with h | h
  · exact absurd hi h
  · rcases h2.2 with h' | h'
    · exact absurd hi.symm h'
    · exact Prod.ext hi (strLtb_eq_of_not h h')

theorem mlookup_mem {α : Type} : ∀ {l : List (String × α)} {k : String} {v : α},
    mlookup l k = some v → (k, v) ∈ l
  | kv :: rest, k, v, h => by
    by_cases he : k = kv.1
    · simp only [mlookup, he, if_pos rfl] at h
      subst he
      rcases kv with ⟨k1, v1⟩
      cases h
      exact List.mem_cons_self _ _
    · simp only [mlookup, if_neg he] at h
      exact List.mem_cons_of_mem _ (mlookup_mem h)

theorem mlookup_isSome_iff {α : Type} : ∀ {l : List (String × α)} {k : String},
    (mlookup l k).isSome = true ↔ k ∈ keysOf l
  | [], k => by simp [mlookup, keysOf]
  | kv :: rest, k => by
    by_cases he : k = kv.1
    · simp [mlookup, keysOf, he]
    · simp only [mlookup, if_neg he, keysOf, List.map_cons, List.mem_cons]
      rw [← keysOf]
      exact ⟨fun h => Or.inr (mlookup_isSome_iff.mp h),
        fun h => mlookup_isSome_iff.mpr (h.resolve_left he)⟩

theorem ksorted_head_ne {α : Type} {kv : String × α} {rest : List (String × α)}
    (h : KSorted (kv :: rest)) : ∀ x ∈ rest, kv.1 ≠ x.1 := by
  intro x hx
  exact strLtb_ne ((List.pairwise_cons.mp h).1 x hx)

theorem mem_mlookup {α : Type} : ∀ {l : List (String × α)} {k : String} {v : α},
    KSorted l → (k, v) ∈ l → mlookup l k = some v
  | kv :: rest, k, v, hs, hm => by
    rcases List.mem_cons.mp hm with h | h
    · cases h
      simp [mlookup]
    · have hne : k ≠ kv.1 := by
        intro he
        exact (ksorted_head_ne hs _ h) (he ▸ rfl)
      simp only [mlookup, if_neg hne]
      exact mem_mlookup (List.pairwise_cons.mp hs).2 h

theorem mlookup_eq_none_iff {α : Type} {l : List (String × α)} {k : String} :
    mlookup l k = none ↔ k ∉ keysOf l := by
  rw [← Option.not_isSome_iff_eq_none, not_iff_not]
  exact mlookup_isSome_iff

theorem ksorted_lookup_none {α : Type} {kv : String × α} {rest : List (String × α)}
    {k : String} (hs : KSorted (kv :: rest)) (hlt : strLtb k kv.1 = true) :
    mlookup (kv :: rest) k = none := by
  rw [mlookup_eq_none_iff]
  intro hm
  rcases List.mem_map.mp hm with ⟨x, hx, hx1⟩
  rcases List.mem_cons.mp hx with h | h
  · exact strLtb_ne hlt (by rw [← hx1, h])
  · have h2 := (List.pairwise_cons.mp hs).1 x h
    have h3 := strLtb_trans hlt h2
    exact strLtb_ne h3 (by rw [hx1])

theorem mlookup_mins_self {α : Type} : ∀ {l : List (String × α)} {k : String} {d : α},
    KSorted l → mlookup (mins l k d) k = some ((mlookup l k).getD d)
  | [], k, d, _ => by simp [mins, mlookup]
  | kv :: rest, k, d, hs => by
    by_cases hlt : strLtb k kv.1 = true
    · have hnone := ksorted_lookup_none hs hlt
      rw [hnone]
      simp only [mins, if_pos hlt, Option.getD_none]
      simp [mlookup]
    · by_cases he : k = kv.1
      · simp only [mins, if_neg hlt, if_pos he, mlookup, if_pos he, Option.getD_some]
      · simp only [mins, if_neg hlt, if_neg he, mlookup, if_neg he]
        exact mlookup_mins_self (List.pairwise_cons.mp hs).2

theorem mlookup_mins_other {α : Type} : ∀ (l : List (String × α)) (k k' : String) (d : α),
    k' ≠ k → mlookup (mins l k d) k' = mlookup l k'
  | [], k, k', d, hne => by simp [mins, mlookup, hne]
  | kv :: rest, k, k', d, hne => by
    by_cases hlt : strLtb k kv.1 = true
    · simp only [mins, if_pos hlt, mlookup, if_neg hne]
    · by_cases he : k = kv.1
      · simp only [mins, if_neg hlt, if_pos he]
      · simp only [mins, if_neg hlt, if_neg he, mlookup]
        by_cases he' : k' = kv.1
        · simp only [if_pos he']
        · simp only [if_neg he']
          exact mlookup_mins_other rest k k' d hne

theorem ksorted_mins {α : Type} : ∀ {l : List (String × α)} {k : String} {d : α},
    KSorted l → KSorted (mins l k d)
  | [], k, d, _ => List.pairwise_cons.mpr ⟨by simp, List.Pairwise.nil⟩
  | kv :: rest, k, d, hs => by
    rcases List.pairwise_cons.mp hs with ⟨hhd, hrest⟩
    by_cases hlt : strLtb k kv.1 = true
    · simp only [mins, if_pos hlt]
      refine List.pairwise_cons.mpr ⟨?_, hs⟩
      intro x hx
      rcases List.mem_cons.mp hx with h | h
      · exact h ▸ hlt
      · exact strLtb_trans hlt (hhd x h)
    · by_cases he : k = kv.1
      · simp only [mins, if_neg hlt, if_pos he]
        exact hs
      · simp only [mins, if_neg hlt, if_neg he]
        refine List.pairwise_cons.mpr ⟨?_, ksorted_mins hrest⟩
        intro x hx
        have hkvk : strLtb kv.1 k = true := by
          rcases strLtb_total (fun h => he h.symm) with h | h
          · exact h
          · exact absurd h hlt
        by_cases hxk : x.1 = k
        · exact hxk ▸ hkvk
        · have : (x.1, x.2) ∈ mins rest k d := by simpa using hx
          have hlk := mem_mlookup (ksorted_mins hrest) this
          have hrl : mlookup rest x.1 = some x.2 := by
            rw [← mlookup_mins_other rest k x.1 d hxk]
            exact hlk
          exact hhd _ (by simpa using mlookup_mem hrl)

theorem keysOf_mins_mono {α : Type} : ∀ {l : List (String × α)} {k k' : String} {d : α},
    k' ∈ keysOf l → k' ∈ keysOf (mins l k d)
  | kv :: rest, k, k', d, hm => by
    by_cases hlt : strLtb k kv.1 = true
    · simp only [mins, if_pos hlt, keysOf, List.map_cons, List.mem_cons]
      simp only [keysOf, List.map_cons, List.mem_cons] at hm
      exact Or.inr hm
    · by_cases he : k = kv.1
      · simp only [mins, if_neg hlt, if_pos he]
        exact hm
      · simp only [mins, if_neg hlt, if_neg he, keysOf, List.map_cons, List.mem_cons]
        simp only [keysOf, List.map_cons, List.mem_cons] at hm
        rcases hm with h | h
        · exact Or.inl h
        · exact Or.inr (keysOf_mins_mono h)

theorem keysOf_mins_self {α : Type} : ∀ (l : List (String × α)) (k : String) (d : α),
    k ∈ keysOf (mins l k d)
  | [], k, d => by simp [mins, keysOf]
  | kv :: rest, k, d => by
    by_cases hlt : strLtb k kv.1 = true
    · simp only [mins, if_pos hlt, keysOf, List.map_cons, List.mem_cons]
      exact Or.inl trivial
    · by_cases he : k = kv.1
      · simp only [mins, if_neg hlt, if_pos he, keysOf, List.map_cons, List.mem_cons]
        exact Or.inl he
      · simp only [mins, if_neg hlt, if_neg he, keysOf, List.map_cons, List.mem_cons]
        exact Or.inr (keysOf_mins_self rest k d)

theorem ksorted_keys_nodup {α : Type} {l : List (String × α)} (hs : KSorted l) :
    (keysOf l).Nodup := by
  rw [keysOf, List.Nodup, List.pairwise_map]
  exact hs.imp (fun h => strLtb_ne h)

theorem mem_setInsertEdge {x e : String × Int} : ∀ {es : EdgeSet},
    x ∈ setInsertEdge es e ↔ x = e ∨ x ∈ es
  | [] => by simp [setInsertEdge]
  | y :: ys => by
    by_cases hlt : edgeLtb e y = true
    · simp only [setInsertEdge, if_pos hlt, List.mem_cons]
    · by_cases he : e = y
      · subst he
        simp only [setInsertEdge, if_neg hlt, eq_self_iff_true, if_true, List.mem_cons]
        tauto
      · simp only [setInsertEdge, if_neg hlt, if_neg he, List.mem_cons,
          mem_setInsertEdge]
        tauto

theorem esorted_setInsertEdge : ∀ {es : EdgeSet} {e : String × Int},
    ESorted es → ESorted (setInsertEdge es e)
  | [], e, _ => List.pairwise_cons.mpr ⟨by simp, List.Pairwise.nil⟩
  | y :: ys, e, hs => by
    rcases List.pairwise_cons.mp hs with ⟨hhd, hrest⟩
    by_cases hlt : edgeLtb e y = true
    · simp only [setInsertEdge, if_pos hlt]
      refine List.pairwise_cons.mpr ⟨?_, hs⟩
      intro x hx
      rcases List.mem_cons.mp hx with h | h
      · exact h ▸ hlt
      · exact edgeLtb_trans hlt (hhd x h)
    · by_cases he : e = y
      · simp only [setInsertEdge, if_neg hlt, if_pos he]
        exact hs
      · simp only [setInsertEdge, if_neg hlt, if_neg he]
        refine List.pairwise_cons.mpr ⟨?_, esorted_setInsertEdge hrest⟩
        intro x hx
        rcases mem_setInsertEdge.mp hx with h | h
        · subst h
          by_contra hyx
          have hyx2 : edgeLtb y x = false := Bool.eq_false_iff.mpr hyx
          exact he (edgeLtb_eq_of_not (Bool.eq_false_iff.mpr hlt) hyx2)
        · exact hhd x h

theorem mem_qInsert {x e : Int × String} : ∀ {q : Queue},
    x ∈ qInsert q e ↔ x = e ∨ x ∈ q
  | [] => by simp [qInsert]
  | y :: ys => by
    by_cases hlt : qLtb e y = true
    · simp only [qInsert, if_pos hlt, List.mem_cons]
    · by_cases he : e = y
      · subst he
        simp only [qInsert, if_neg hlt, eq_self_iff_true, if_true, List.mem_cons]
        tauto
      · simp only [qInsert, if_neg hlt, if_neg he, List.mem_cons, mem_qInsert]
        tauto

theorem qInsert_length : ∀ (q : Queue) (e : Int × String),
    (qInsert q e).length ≤ q.length + 1
  | [], e => by simp [qInsert]
  | y :: ys, e => by
    by_cases hlt : qLtb e y = true
    · simp [qInsert, if_pos hlt]
    · by_cases he : e = y
      · simp [qInsert, if_neg hlt, if_pos he]
      · simp only [qInsert, if_neg hlt, if_neg he, List.length_cons]
        have := qInsert_length ys e
        omega

theorem qsorted_qInsert : ∀ {q : Queue} {e : Int × String},
    QSorted q → QSorted (qInsert q e)
  | [], e, _ => List.pairwise_cons.mpr ⟨by simp, List.Pairwise.nil⟩
  | y :: ys, e, hs => by
    rcases List.pairwise_cons.mp hs with ⟨hhd, hrest⟩
    by_cases hlt : qLtb e y = true
    · simp only [qInsert, if_pos hlt]
      refine List.pairwise_cons.mpr ⟨?_, hs⟩
      intro x hx
      rcases List.mem_cons.mp hx with h | h
      · exact h ▸ hlt
      · exact qLtb_trans hlt (hhd x h)
    · by_cases he : e = y
      · simp only [qInsert, if_neg hlt, if_pos he]
        exact hs
      · simp only [qInsert, if_neg hlt, if_neg he]
        refine List.pairwise_cons.mpr ⟨?_, qsorted_qInsert hrest⟩
        intro x hx
        rcases mem_qInsert.mp hx with h | h
        · subst h
          by_contra hyx
          exact he (qLtb_eq_of_not (Bool.eq_false_iff.mpr hlt)
            (Bool.eq_false_iff.mpr hyx))
        · exact hhd x h

theorem lookupP_pathsSet_self : ∀ (p : Paths) (k : String) (pe : PEntry),
    mlookup (pathsSet p k pe) k = some pe
  | [], k, pe => by simp [pathsSet, mlookup]
  | kv :: rest, k, pe => by
    by_cases he : kv.1 = k
    · simp [pathsSet, if_pos he, mlookup]
    · simp only [pathsSet, if_neg he, mlookup]
      rw [if_neg (fun h => he h.symm)]
      exact lookupP_pathsSet_self rest k pe

theorem lookupP_pathsSet_other : ∀ (p : Paths) (k k' : String) (pe : PEntry),
    k' ≠ k → mlookup (pathsSet p k pe) k' = mlookup p k'
  | [], k, k', pe, hne => by simp [pathsSet, mlookup, hne]
  | kv :: rest, k, k', pe, hne => by
    by_cases he : kv.1 = k
    · simp only [pathsSet, if_pos he, mlookup, if_neg hne]
      rw [if_neg (fun h : k' = kv.1 => hne (h.trans he))]
    · simp only [pathsSet, if_neg he, mlookup]
      by_cases he' : k' = kv.1
      · simp [if_pos he']
      · simp only [if_neg he']
        exact lookupP_pathsSet_other rest k k' pe hne

theorem keysOf_pathsSet : ∀ {p : Paths} {k : String} (pe : PEntry),
    k ∈ keysOf p → keysOf (pathsSet p k pe) = keysOf p
  | kv :: rest, k, pe, hm => by
    by_cases he : kv.1 = k
    · simp [pathsSet, if_pos he, keysOf, he]
    · have hm' : k ∈ keysOf rest := by
        simp only [keysOf, List.map_cons, List.mem_cons] at hm
        exact hm.resolve_left (fun h => he h.symm)
      simp only [pathsSet, if_neg he, keysOf, List.map_cons]
      rw [← keysOf, ← keysOf, keysOf_pathsSet pe hm']

theorem lookup_addEdge_self : ∀ {g : Graph} {s : String} {e : String × Int},
    KSorted g →
    mlookup (graphAddEdge g s e) s = some (setInsertEdge ((mlookup g s).getD []) e)
  | [], s, e, _ => by simp [graphAddEdge, mlookup, setInsertEdge]
  | kv :: rest, s, e, hs => by
    by_cases hlt : strLtb s kv.1 = true
    · have hnone := ksorted_lookup_none hs hlt
      rw [hnone]
      simp only [graphAddEdge, if_pos hlt, Option.getD_none]
      simp [mlookup, setInsertEdge]
    · by_cases he : s = kv.1
      · simp only [graphAddEdge, if_neg hlt, if_pos he, mlookup, if_pos he,
          Option.getD_some]
      · simp only [graphAddEdge, if_neg hlt, if_neg he, mlookup, if_neg he]
        exact lookup_addEdge_self (List.pairwise_cons.mp hs).2

theorem lookup_addEdge_other : ∀ (g : Graph) (s k : String) (e : String × Int),
    k ≠ s → mlookup (graphAddEdge g s e) k = mlookup g k
  | [], s, k, e, hne => by simp [graphAddEdge, mlookup, hne]
  | kv :: rest, s, k, e, hne => by
    by_cases hlt : strLtb s kv.1 = true
    · simp only [graphAddEdge, if_pos hlt, mlookup, if_neg hne]
    · by_cases he : s = kv.1
      · simp only [graphAddEdge, if_neg hlt, if_pos he, mlookup]
        rw [if_neg (fun h : k = kv.1 => hne (h.trans he.symm)), ← he]
        rw [if_neg hne]
      · simp only [graphAddEdge, if_neg hlt, if_neg he, mlookup]
        by_cases he' : k = kv.1
        · simp only [if_pos he']
        · simp only [if_neg he']
          exact lookup_addEdge_other rest s k e hne

theorem ksorted_addEdge : ∀ {g : Graph} {s : String} {e : String × Int},
    KSorted g → KSorted (graphAddEdge g s e)
  | [], s, e, _ => List.pairwise_cons.mpr ⟨by simp, List.Pairwise.nil⟩
  | kv :: rest, s, e, hs => by
    rcases List.pairwise_cons.mp hs with ⟨hhd, hrest⟩
    by_cases hlt : strLtb s kv.1 = true
    · simp only [graphAddEdge, if_pos hlt]
      refine List.pairwise_cons.mpr ⟨?_, hs⟩
      intro x hx
      rcases List.mem_cons.mp hx with h | h
      · exact h ▸ hlt
      · exact strLtb_trans hlt (hhd x h)
    · by_cases he : s = kv.1
      · simp only [graphAddEdge, if_neg hlt, if_pos he]
        exact List.pairwise_cons.mpr ⟨fun x hx => hhd x hx, hrest⟩
      · simp only [graphAddEdge, if_neg hlt, if_neg he]
        refine List.pairwise_cons.mpr ⟨?_, ksorted_addEdge hrest⟩
        intro x hx
        have hkvs : strLtb kv.1 s = true := by
          rcases strLtb_total (fun h => he h.symm) with h | h
          · exact h
          · exact absurd h hlt
        by_cases hxs : x.1 = s
        · exact hxs ▸ hkvs
        · have : (x.1, x.2) ∈ graphAddEdge rest s e := by simpa using hx
          have hlk := mem_mlookup (ksorted_addEdge hrest) this
          have hrl : mlookup rest x.1 = some x.2 := by
            rw [← lookup_addEdge_other rest s x.1 e hxs]
            exact hlk
          exact hhd _ (by simpa using mlookup_mem hrl)

theorem keysOf_addEdge_mono : ∀ {g : Graph} {s k : String} {e : String × Int},
    k ∈ keysOf g → k ∈ keysOf (graphAddEdge g s e)
  | kv :: rest, s, k, e, hm => by
    by_cases hlt : strLtb s kv.1 = true
    · simp only [graphAddEdge, if_pos hlt, keysOf, List.map_cons, List.mem_cons]
      simp only [keysOf, List.map_cons, List.mem_cons] at hm
      exact Or.inr hm
    · by_cases he : s = kv.1
      · simp only [graphAddEdge, if_neg hlt, if_pos he, keysOf, List.map_cons,
          List.mem_cons]
        simpa [keysOf] using hm
      · simp only [graphAddEdge, if_neg hlt, if_neg he, keysOf, List.map_cons,
          List.mem_cons]
        simp only [keysOf, List.map_cons, List.mem_cons] at hm
        rcases hm with h | h
        · exact Or.inl h
        · exact Or.inr (keysOf_addEdge_mono h)

theorem keysOf_addEdge_self : ∀ (g : Graph) (s : String) (e : String × Int),
    s ∈ keysOf (graphAddEdge g s e)
  | [], s, e => by simp [graphAddEdge, keysOf]
  | kv :: rest, s, e => by
    by_cases hlt : strLtb s kv.1 = true
    · simp only [graphAddEdge, if_pos hlt, keysOf, List.map_cons, List.mem_cons]
      exact Or.inl trivial
    · by_cases he : s = kv.1
      · simp only [graphAddEdge, if_neg hlt, if_pos he, keysOf, List.map_cons,
          List.mem_cons]
        exact Or.inl he
      · simp only [graphAddEdge, if_neg hlt, if_neg he, keysOf, List.map_cons,
          List.mem_cons]
        exact Or.inr (keysOf_addEdge_self rest s e)

theorem hasNode_iff_mem_keys {g : Graph} {k : String} :
    hasNode g k = true ↔ k ∈ keysOf g := by
  rw [hasNode, lookupGraph]
  exact mlookup_isSome_iff

theorem ksorted_loadRow {g : Graph} {r : String × String × Int}
    (hs : KSorted g) : KSorted (loadRow g r) :=
  ksorted_mins (ksorted_addEdge hs)

theorem hasNode_loadRow_mono {g : Graph} {r : String × String × Int} {k : String}
    (h : hasNode g k = true) : hasNode (loadRow g r) k = true := by
  rw [hasNode_iff_mem_keys] at h ⊢
  exact keysOf_mins_mono (keysOf_addEdge_mono h)

theorem hasNode_loadRow_dest (g : Graph) (r : String × String × Int) :
    hasNode (loadRow g r) r.2.1 = true := by
  rw [hasNode_iff_mem_keys]
  exact keysOf_mins_self _ _ _

theorem hasNode_loadRow_src (g : Graph) (r : String × String × Int) :
    hasNode (loadRow g r) r.1 = true := by
  rw [hasNode_iff_mem_keys]
  exact keysOf_mins_mono (keysOf_addEdge_self g r.1 r.2)

theorem edge_mem_loadRow {g : Graph} {r : String × String × Int}
    {kv : String × EdgeSet} {x : String × Int} (hs : KSorted g)
    (hkv : kv ∈ loadRow g r) (hx : x ∈ kv.2) :
    (∃ kv0 ∈ g, x ∈ kv0.2) ∨ x = r.2 := by
  have hg1 : KSorted (graphAddEdge g r.1 r.2) := ksorted_addEdge hs
  have hlk : mlookup (loadRow g r) kv.1 = some kv.2 :=
    mem_mlookup (ksorted_loadRow hs) (by simpa using hkv)
  have hg1look : ∃ es1, mlookup (graphAddEdge g r.1 r.2) kv.1 = some es1 ∧ x ∈ es1 := by
    by_cases he : kv.1 = r.2.1
    · rw [loadRow, graphEnsure, he, mlookup_mins_self hg1] at hlk
      have hlk2 : (mlookup (graphAddEdge g r.1 r.2) r.2.1).getD [] = kv.2 :=
        Option.some.inj hlk
      rcases h1 : mlookup (graphAddEdge g r.1 r.2) r.2.1 with _ | es1
      · rw [h1] at hlk2
        simp only [Option.getD_none] at hlk2
        rw [← hlk2] at hx
        exact absurd hx (List.not_mem_nil x)
      · rw [h1] at hlk2
        simp only [Option.getD_some] at hlk2
        refine ⟨kv.2, ?_, hx⟩
        rw [he, h1, hlk2]
    · rw [loadRow, graphEnsure, mlookup_mins_other _ _ _ _ he] at hlk
      exact ⟨kv.2, hlk, hx⟩
  rcases hg1look with ⟨es1, hes1, hxes1⟩
  by_cases he1 : kv.1 = r.1
  · rw [he1, lookup_addEdge_self hs] at hes1
    cases hes1
    rcases mem_setInsertEdge.mp hxes1 with h | h
    · exact Or.inr h
    · rcases h0 : mlookup g r.1 with _ | es0
      · rw [h0] at h
        exact absurd h (List.not_mem_nil x)
      · rw [h0] at h
        simp only [Option.getD_some] at h
        exact Or.inl ⟨(r.1, es0), mlookup_mem h0, h⟩
  · rw [lookup_addEdge_other _ _ _ _ he1] at hes1
    exact Or.inl ⟨(kv.1, es1), by simpa using mlookup_mem hes1, hxes1⟩

theorem closed_loadRow {g : Graph} {r : String × String × Int}
    (hs : KSorted g) (hc : ClosedG g) : ClosedG (loadRow g r) := by
  intro kv hkv x hx
  rcases edge_mem_loadRow hs hkv hx with ⟨kv0, hkv0, hxkv0⟩ | h
  · exact hasNode_loadRow_mono (hc kv0 hkv0 x hxkv0)
  · rw [h]
    exact hasNode_loadRow_dest g r

theorem nonneg_loadRow {g : Graph} {r : String × String × Int}
    (hs : KSorted g) (hn : NonnegG g) (hr : 0 ≤ r.2.2) : NonnegG (loadRow g r) := by
  intro kv hkv x hx
  rcases edge_mem_loadRow hs hkv hx with ⟨kv0, hkv0, hxkv0⟩ | h
  · exact hn kv0 hkv0 x hxkv0
  · rw [h]
    exact hr

theorem keysOf_mins_sub {α : Type} : ∀ {l : List (String × α)} {k0 k : String} {d : α},
    k ∈ keysOf (mins l k0 d) → k ∈ keysOf l ∨ k = k0
  | [], k0, k, d, hm => by
    simp only [mins, keysOf, List.map_cons, List.map_nil, List.mem_singleton] at hm
    exact Or.inr hm
  | kv :: rest, k0, k, d, hm => by
    by_cases hlt : strLtb k0 kv.1 = true
    · simp only [mins, if_pos hlt, keysOf, List.map_cons, List.mem_cons] at hm
      rcases hm with h | h
      · exact Or.inr h
      · exact Or.inl (by simpa [keysOf] using h)
    · by_cases he : k0 = kv.1
      · simp only [mins, if_neg hlt, if_pos he] at hm
        exact Or.inl hm
      · simp only [mins, if_neg hlt, if_neg he, keysOf, List.map_cons,
          List.mem_cons] at hm
        rcases hm with h | h
        · exact Or.inl (by simp [keysOf, h])
        · rcases keysOf_mins_sub h with h' | h'
          · exact Or.inl (by simp only [keysOf, List.map_cons, List.mem_cons]; exact Or.inr h')
          · exact Or.inr h'

theorem keysOf_addEdge_sub : ∀ {g : Graph} {s k : String} {e : String × Int},
    k ∈ keysOf (graphAddEdge g s e) → k ∈ keysOf g ∨ k = s
  | [], s, k, e, hm => by
    simp only [graphAddEdge, keysOf, List.map_cons, List.map_nil,
      List.mem_singleton] at hm
    exact Or.inr hm
  | kv :: rest, s, k, e, hm => by
    by_cases hlt : strLtb s kv.1 = true
    · simp only [graphAddEdge, if_pos hlt, keysOf, List.map_cons, List.mem_cons] at hm
      rcases hm with h | h
      · exact Or.inr h
      · exact Or.inl (by simpa [keysOf] using h)
    · by_cases he : s = kv.1
      · simp only [graphAddEdge, if_neg hlt, if_pos he, keysOf, List.map_cons,
          List.mem_cons] at hm
        rcases hm with h | h
        · exact Or.inl (by simp [keysOf, h])
        · exact Or.inl (by simp only [keysOf, List.map_cons, List.mem_cons]; exact Or.inr h)
      · simp only [graphAddEdge, if_neg hlt, if_neg he, keysOf, List.map_cons,
          List.mem_cons] at hm
        rcases hm with h | h
        · exact Or.inl (by simp [keysOf, h])
        · rcases keysOf_addEdge_sub h with h' | h'
          · exact Or.inl (by simp only [keysOf, List.map_cons, List.mem_cons]; exact Or.inr h')
          · exact Or.inr h'

theorem noempty_loadRow {g : Graph} {r : String × String × Int}
    (hne : NoEmptyIds g) (h1 : r.1 ≠ "") (h2 : r.2.1 ≠ "") :
    NoEmptyIds (loadRow g r) := by
  intro kv hkv
  have hk : kv.1 ∈ keysOf (loadRow g r) := List.mem_map_of_mem Prod.fst hkv
  rcases keysOf_mins_sub hk with h | h
  · rcases keysOf_addEdge_sub h with h' | h'
    · rcases List.mem_map.mp h' with ⟨kv0, hkv0, hkv0e⟩
      rw [← hkv0e]
      exact hne kv0 hkv0
    · rw [h']
      exact h1
  · rw [h]
    exact h2

theorem notsrc_loadRow {g : Graph} {r : String × String × Int} {d : String}
    (hs : KSorted g) (hne : r.1 ≠ d)
    (h : mlookup g d = none ∨ mlookup g d = some []) :
    mlookup (loadRow g r) d = none ∨ mlookup (loadRow g r) d = some [] := by
  have hg1 : mlookup (graphAddEdge g r.1 r.2) d = mlookup g d :=
    lookup_addEdge_other g r.1 d r.2 (fun hc => hne hc.symm)
  by_cases he : d = r.2.1
  · subst he
    rw [loadRow, graphEnsure, mlookup_mins_self (ksorted_addEdge hs), hg1]
    rcases h with h | h <;> rw [h] <;> simp
  · rw [loadRow, graphEnsure, mlookup_mins_other _ _ _ _ he, hg1]
    exact h

theorem load_foldl_props : ∀ {rows : List (String × String × Int)} {g : Graph},
    ValidRows rows → KSorted g → ClosedG g → NonnegG g → NoEmptyIds g →
    KSorted (rows.foldl loadRow g) ∧ ClosedG (rows.foldl loadRow g) ∧
      NonnegG (rows.foldl loadRow g) ∧ NoEmptyIds (rows.foldl loadRow g)
  | [], g, _, hs, hc, hn, he => ⟨hs, hc, hn, he⟩
  | r :: rest, g, hv, hs, hc, hn, he => by
    have hr := hv r (List.mem_cons_self r rest)
    have hv' : ValidRows rest := fun x hx => hv x (List.mem_cons_of_mem r hx)
    rw [List.foldl_cons]
    exact load_foldl_props hv' (ksorted_loadRow hs) (closed_loadRow hs hc)
      (nonneg_loadRow hs hn hr.2.2) (noempty_loadRow he hr.1 hr.2.1)

theorem load_foldl_sc : ∀ {rows : List (String × String × Int)} {g : Graph},
    KSorted g → ClosedG g →
    KSorted (rows.foldl loadRow g) ∧ ClosedG (rows.foldl loadRow g)
  | [], _, hs, hc => ⟨hs, hc⟩
  | r :: rest, g, hs, hc => by
    rw [List.foldl_cons]
    exact load_foldl_sc (ksorted_loadRow hs) (closed_loadRow hs hc)

theorem loadFromFile_sorted (rows : List (String × String × Int)) :
    KSorted (loadFromFile rows) :=
  (load_foldl_sc List.Pairwise.nil (fun kv hkv => absurd hkv (List.not_mem_nil kv))).1

theorem loadFromFile_closed (rows : List (String × String × Int)) :
    ClosedG (loadFromFile rows) :=
  (load_foldl_sc List.Pairwise.nil (fun kv hkv => absurd hkv (List.not_mem_nil kv))).2

theorem loadFromFile_nonneg {rows : List (String × String × Int)}
    (hv : ValidRows rows) : NonnegG (loadFromFile rows) :=
  (load_foldl_props hv List.Pairwise.nil
    (fun kv hkv => absurd hkv (List.not_mem_nil kv))
    (fun kv hkv => absurd hkv (List.not_mem_nil kv))
    (fun kv hkv => absurd hkv (List.not_mem_nil kv))).2.2.1

theorem loadFromFile_noempty {rows : List (String × String × Int)}
    (hv : ValidRows rows) : NoEmptyIds (loadFromFile rows) :=
  (load_foldl_props hv List.Pairwise.nil
    (fun kv hkv => absurd hkv (List.not_mem_nil kv))
    (fun kv hkv => absurd hkv (List.not_mem_nil kv))
    (fun kv hkv => absurd hkv (List.not_mem_nil kv))).2.2.2

theorem hasNode_foldl_mono : ∀ {rows : List (String × String × Int)} {g : Graph}
    {k : String}, hasNode g k = true → hasNode (rows.foldl loadRow g) k = true
  | [], _, _, h => h
  | r :: rest, g, k, h => by
    rw [List.foldl_cons]
    exact hasNode_foldl_mono (hasNode_loadRow_mono h)

theorem hasNode_load_dest : ∀ {rows : List (String × String × Int)} {g : Graph}
    {d : String}, (∃ r ∈ rows, r.2.1 = d) → hasNode (rows.foldl loadRow g) d = true
  | r :: rest, g, d, hex => by
    rw [List.foldl_cons]
    rcases hex with ⟨r0, hr0, hr0d⟩
    rcases List.mem_cons.mp hr0 with h | h
    · subst h
      exact hasNode_foldl_mono (hr0d ▸ hasNode_loadRow_dest g r0)
    · exact hasNode_load_dest ⟨r0, h, hr0d⟩

theorem notsrc_foldl : ∀ {rows : List (String × String × Int)} {g : Graph}
    {d : String}, KSorted g → (∀ r ∈ rows, r.1 ≠ d) →
    (mlookup g d = none ∨ mlookup g d = some []) →
    mlookup (rows.foldl loadRow g) d = none ∨
      mlookup (rows.foldl loadRow g) d = some []
  | [], _, _, _, _, h => h
  | r :: rest, g, d, hs, hne, h => by
    rw [List.foldl_cons]
    exact notsrc_foldl (ksorted_loadRow hs)
      (fun x hx => hne x (List.mem_cons_of_mem r hx))
      (notsrc_loadRow hs (hne r (List.mem_cons_self r rest)) h)

/-- Claim C5: after loading any edge list, every node mentioned as the
destination of any edge is a key of the mapping, and a node that appears
only as an edge destination (never as a source) is a known node whose
outgoing edge set is empty. -/
theorem C5_dest_key_invariant (rows : List (String × String × Int)) (d : String)
    (hd : ∃ r ∈ rows, r.2.1 = d) (hns : ∀ r ∈ rows, r.1 ≠ d) :
    ClosedG (loadFromFile rows) ∧ hasNode (loadFromFile rows) d = true ∧
      lookupGraph (loadFromFile rows) d = some [] := by
  refine ⟨loadFromFile_closed rows, hasNode_load_dest hd, ?_⟩
  have hnode : hasNode (loadFromFile rows) d = true := hasNode_load_dest hd
  have h := notsrc_foldl (g := []) (d := d) List.Pairwise.nil hns (Or.inl rfl)
  rw [← loadFromFile] at h
  rcases h with h | h
  · rw [hasNode, lookupGraph, h] at hnode
    exact absurd hnode (by simp)
  · exact h

/-- Witness for C5 at the concrete edge list `[A -> B (5)]` with `d = B`:
`B` occurs only as a destination and ends up a known node with an empty
edge set. -/
theorem C5_dest_key_invariant_witness :
    (∃ r ∈ [("A", "B", (5 : Int))], r.2.1 = "B") ∧
      (∀ r ∈ [("A", "B", (5 : Int))], r.1 ≠ "B") ∧
      (ClosedG (loadFromFile [("A", "B", (5 : Int))]) ∧
        hasNode (loadFromFile [("A", "B", (5 : Int))]) "B" = true ∧
        lookupGraph (loadFromFile [("A", "B", (5 : Int))]) "B" = some []) :=
  ⟨by decide, by decide,
    C5_dest_key_invariant [("A", "B", (5 : Int))] "B" (by decide) (by decide)⟩

theorem mem_keys_lookup {α : Type} {l : List (String × α)} {k : String}
    (h : k ∈ keysOf l) : ∃ v, mlookup l k = some v := by
  have := mlookup_isSome_iff.mpr h
  exact Option.isSome_iff_exists.mp this

theorem pathsGet_present {p : Paths} {k : String} {pe : PEntry}
    (h : mlookup p k = some pe) : pathsGet p k = (pe, p) := by
  rw [pathsGet, lookupP, h]

theorem dOf_eq {p : Paths} {v : String} {pe : PEntry}
    (h : mlookup p v = some pe) : dOf p v = pe.1 := by
  rw [dOf, h]

theorem mem_edgesOf {g : Graph} {u : String} {x : String × Int}
    (h : x ∈ edgesOf g u) : ∃ es, lookupGraph g u = some es ∧ x ∈ es ∧ (u, es) ∈ g := by
  rcases hes : lookupGraph g u with _ | es
  · rw [edgesOf, hes] at h
    exact absurd h (List.not_mem_nil x)
  · rw [edgesOf, hes] at h
    exact ⟨es, rfl, h, mlookup_mem hes⟩

theorem nonneg_edge {g : Graph} {u : String} {x : String × Int}
    (hg : NonnegG g) (h : x ∈ edgesOf g u) : 0 ≤ x.2 := by
  rcases mem_edgesOf h with ⟨es, _, hx, hmem⟩
  exact hg (u, es) hmem x hx

theorem hasNode_of_edge {g : Graph} {u : String} {x : String × Int}
    (hc : ClosedG g) (h : x ∈ edgesOf g u) : hasNode g x.1 = true := by
  rcases mem_edgesOf h with ⟨es, _, hx, hmem⟩
  exact hc (u, es) hmem x hx

theorem noempty_hasNode {g : Graph} {u : String}
    (hne : NoEmptyIds g) (h : hasNode g u = true) : u ≠ "" := by
  rw [hasNode_iff_mem_keys] at h
  rcases List.mem_map.mp h with ⟨kv, hkv, hkve⟩
  rw [← hkve]
  exact hne kv hkv

theorem ksorted_iff_keys {α : Type} {l : List (String × α)} :
    KSorted l ↔ List.Pairwise (fun a b => strLtb a b = true) (keysOf l) := by
  rw [keysOf, List.pairwise_map]
  exact Iff.rfl

theorem ksorted_of_keys {α β : Type} {l : List (String × α)} {l' : List (String × β)}
    (h : keysOf l = keysOf l') (hs : KSorted l') : KSorted l := by
  rw [ksorted_iff_keys, h, ← ksorted_iff_keys]
  exact hs

theorem sumD_pathsSet : ∀ {p : Paths} {v : String} {pe : PEntry} (pe' : PEntry),
    mlookup p v = some pe →
    sumD (pathsSet p v pe') + pe.1.toNat = sumD p + pe'.1.toNat
  | kv :: rest, v, pe, pe', h => by
    by_cases he : kv.1 = v
    · rw [mlookup, if_pos he.symm] at h
      cases h
      simp only [pathsSet, if_pos he, sumD, List.map_cons, List.sum_cons]
      omega
    · rw [mlookup, if_neg (fun hx => he hx.symm)] at h
      have := sumD_pathsSet (p := rest) pe' h
      simp only [pathsSet, if_neg he, sumD, List.map_cons, List.sum_cons]
      simp only [sumD] at this
      omega

theorem relaxOne_eq {cur : String} {e : String × Int} {p : Paths} {q : Queue}
    {dc dn : Int} {prc prn : String} (hc : mlookup p cur = some (dc, prc))
    (hn : mlookup p e.1 = some (dn, prn)) :
    relaxOne cur e (p, q) =
      if dc + e.2 < dn then
        (pathsSet p e.1 (dc + e.2, cur), qInsert q (dc + e.2, e.1))
      else (p, q) := by
  rw [relaxOne]
  simp only [pathsGet_present hc, pathsGet_present hn]

theorem predstar_d_mono {g : Graph} {s : String} {p : Paths} {q : Queue}
    (hg : GOK g s) (hd : DInvC g s p q) :
    ∀ {a b : String}, PredStar p a b → dOf p b ≤ dOf p a := by
  intro a b h
  induction h with
  | refl v => exact le_refl _
  | @step z x pe hlk hne hps ih =>
    rcases hd.jrel _ (mlookup_mem hlk) hne with ⟨w, pe', hedge, hlk', hle, _⟩
    have hle2 : pe'.1 + w ≤ pe.1 := hle
    have hw : 0 ≤ w := nonneg_edge hg.nonneg hedge
    have h1 : dOf p pe.2 = pe'.1 := dOf_eq hlk'
    have h2 : dOf p z = pe.1 := dOf_eq hlk
    omega

theorem acc_pathsSet_away {p : Paths} {v : String} {pe' : PEntry} :
    ∀ {y : String}, AccPred p y → ¬ PredStar p y v → AccPred (pathsSet p v pe') y := by
  intro y hacc
  induction hacc with
  | @base z pe hlk he =>
    intro hns
    have hzv : z ≠ v := fun h => hns (h ▸ PredStar.refl z)
    exact AccPred.base (by rw [lookupP_pathsSet_other p v z pe' hzv]; exact hlk) he
  | @step z pe hlk hne hacc2 ih =>
    intro hns
    have hzv : z ≠ v := fun h => hns (h ▸ PredStar.refl z)
    have hns2 : ¬ PredStar p pe.2 v := fun h => hns (PredStar.step hlk hne h)
    exact AccPred.step (by rw [lookupP_pathsSet_other p v z pe' hzv]; exact hlk) hne
      (ih hns2)

theorem acc_all_pathsSet {p : Paths} {v : String} {pe' : PEntry}
    (hvacc : AccPred (pathsSet p v pe') v) :
    ∀ {x : String}, AccPred p x → AccPred (pathsSet p v pe') x := by
  intro x hacc
  induction hacc with
  | @base z pe hlk he =>
    by_cases hzv : z = v
    · exact hzv ▸ hvacc
    · exact AccPred.base (by rw [lookupP_pathsSet_other p v z pe' hzv]; exact hlk) he
  | @step z pe hlk hne hacc2 ih =>
    by_cases hzv : z = v
    · exact hzv ▸ hvacc
    · exact AccPred.step (by rw [lookupP_pathsSet_other p v z pe' hzv]; exact hlk) hne ih

theorem dinvc_update {g : Graph} {s cur : String} {p : Paths} {q : Queue}
    (hg : GOK g s) (hd : DInvC g s p q) (hcur : hasNode g cur = true)
    {v : String} {w dc dn : Int} {prc prn : String}
    (hc : mlookup p cur = some (dc, prc)) (hn : mlookup p v = some (dn, prn))
    (hedge : (v, w) ∈ edgesOf g cur) (hup : dc + w < dn) :
    DInvC g s (pathsSet p v (dc + w, cur)) (qInsert q (dc + w, v)) := by
  have hw : 0 ≤ w := nonneg_edge hg.nonneg hedge
  have hbc : 0 ≤ dc ∧ dc ≤ INTMAX := hd.bounds _ (mlookup_mem hc)
  have hbn : 0 ≤ dn ∧ dn ≤ INTMAX := hd.bounds _ (mlookup_mem hn)
  have hcurne : cur ≠ "" := noempty_hasNode hg.noempty hcur
  have hnewnn : 0 ≤ dc + w := by omega
  have hnewlt : dc + w < INTMAX := by omega
  have hdclt : dc < INTMAX := by omega
  have hvs : v ≠ s := by
    intro hvs
    rw [hvs, hd.src0] at hn
    cases hn
    omega
  have hvcur : v ≠ cur := by
    intro hvc
    rw [hvc, hc] at hn
    cases hn
    omega
  have hvkeys : v ∈ keysOf p := mlookup_isSome_iff.mp (by rw [hn]; rfl)
  have hps : KSorted p := ksorted_of_keys hd.keys hg.sorted
  have hkeys' : keysOf (pathsSet p v (dc + w, cur)) = keysOf p :=
    keysOf_pathsSet _ hvkeys
  have hps' : KSorted (pathsSet p v (dc + w, cur)) := ksorted_of_keys hkeys' hps
  have hmem' : ∀ kv ∈ pathsSet p v (dc + w, cur),
      kv = (v, (dc + w, cur)) ∨ (kv.1 ≠ v ∧ kv ∈ p) := by
    intro kv hkv
    have hlk : mlookup (pathsSet p v (dc + w, cur)) kv.1 = some kv.2 :=
      mem_mlookup hps' (by simpa using hkv)
    by_cases hkvv : kv.1 = v
    · rw [hkvv, lookupP_pathsSet_self] at hlk
      left
      rcases kv with ⟨k1, k2⟩
      simp only at hkvv
      cases hlk
      rw [hkvv]
    · rw [lookupP_pathsSet_other p v kv.1 _ hkvv] at hlk
      exact Or.inr ⟨hkvv, by simpa using mlookup_mem hlk⟩
  have hlkother : ∀ x : String, x ≠ v →
      mlookup (pathsSet p v (dc + w, cur)) x = mlookup p x :=
    fun x hx => lookupP_pathsSet_other p v x _ hx
  have hcurstar : ¬ PredStar p cur v := by
    intro hstar
    have := predstar_d_mono hg hd hstar
    rw [dOf_eq hc, dOf_eq hn] at this
    simp only at this
    omega
  refine ⟨?_, ?_, ?_, ?_, ?_, ?_, ?_, ?_⟩
  · exact hkeys'.trans hd.keys
  · intro kv hkv
    rcases hmem' kv hkv with h | ⟨_, h⟩
    · rw [h]
      exact ⟨hnewnn, le_of_lt hnewlt⟩
    · exact hd.bounds kv h
  · rw [hlkother s (fun h => hvs h.symm)]
    exact hd.src0
  · intro kv hkv hpe hks
    rcases hmem' kv hkv with h | ⟨_, h⟩
    · rw [h] at hpe
      exact absurd hpe hcurne
    · exact hd.unreachpred kv h hpe hks
  · intro y hy
    rcases mem_qInsert.mp hy with h | h
    · rw [h]
      exact hasNode_of_edge hg.closed hedge
    · exact hd.qkeys y h
  · intro kv hkv hlt
    rcases hmem' kv hkv with h | ⟨_, h⟩
    · rw [h]
      have hrc : Reach g s cur dc := by
        have := hd.reach _ (mlookup_mem hc) (by simpa using hdclt)
        simpa using this
      exact Reach.step hrc hedge
    · exact hd.reach kv h hlt
  · intro kv hkv hpe
    rcases hmem' kv hkv with h | ⟨hne1, h⟩
    · subst h
      refine ⟨w, (dc, prc), by simpa using hedge, ?_, by simp, by simpa using hnewlt⟩
      simp only
      rw [hlkother cur (fun h => hvcur h.symm)]
      exact hc
    · rcases hd.jrel kv h hpe with ⟨w0, pe0, hedge0, hlk0, hle0, hlt0⟩
      by_cases hpred : kv.2.2 = v
      · refine ⟨w0, (dc + w, cur), hedge0, ?_, ?_, hlt0⟩
        · rw [hpred, lookupP_pathsSet_self]
        · rw [hpred, hn] at hlk0
          cases hlk0
          simp only
          simp only at hle0
          omega
      · exact ⟨w0, pe0, hedge0, by rw [hlkother _ hpred]; exact hlk0, hle0, hlt0⟩
  · have hvacc : AccPred (pathsSet p v (dc + w, cur)) v := by
      refine AccPred.step (lookupP_pathsSet_self p v _) hcurne ?_
      have hacccur : AccPred p cur := hd.acc _ (mlookup_mem hc)
      exact acc_pathsSet_away hacccur hcurstar
    intro kv hkv
    rcases hmem' kv hkv with h | ⟨_, h⟩
    · rw [h]
      exact hvacc
    · exact acc_all_pathsSet hvacc (hd.acc kv h)

theorem dOf_pathsSet_other {p : Paths} {v x : String} {pe' : PEntry} (hx : x ≠ v) :
    dOf (pathsSet p v pe') x = dOf p x := by
  simp only [dOf, lookupP_pathsSet_other p v x pe' hx]

theorem dOf_pathsSet_self {p : Paths} {v : String} {pe' : PEntry} :
    dOf (pathsSet p v pe') v = pe'.1 :=
  dOf_eq (lookupP_pathsSet_self p v pe')

theorem relaxOne_props {g : Graph} {s cur : String} {e : String × Int}
    {p : Paths} {q : Queue} (hg : GOK g s) (hd : DInvC g s p q)
    (hcur : hasNode g cur = true) (he : e ∈ edgesOf g cur) :
    DInvC g s (relaxOne cur e (p, q)).1 (relaxOne cur e (p, q)).2 ∧
    (∀ x, dOf (relaxOne cur e (p, q)).1 x ≤ dOf p x) ∧
    dOf (relaxOne cur e (p, q)).1 cur = dOf p cur ∧
    (∀ y ∈ q, y ∈ (relaxOne cur e (p, q)).2) ∧
    (∀ u, DqAt g p q u → DqAt g (relaxOne cur e (p, q)).1 (relaxOne cur e (p, q)).2 u) ∧
    dOf (relaxOne cur e (p, q)).1 e.1 ≤ dOf (relaxOne cur e (p, q)).1 cur + e.2 ∧
    2 * sumD (relaxOne cur e (p, q)).1 + (relaxOne cur e (p, q)).2.length ≤
      2 * sumD p + q.length := by
  obtain ⟨v, w⟩ := e
  have hcurk : cur ∈ keysOf p := by
    rw [hd.keys, ← hasNode_iff_mem_keys]
    exact hcur
  have hvk : v ∈ keysOf p := by
    rw [hd.keys, ← hasNode_iff_mem_keys]
    exact hasNode_of_edge hg.closed he
  rcases mem_keys_lookup hcurk with ⟨⟨dc, prc⟩, hc⟩
  rcases mem_keys_lookup hvk with ⟨⟨dn, prn⟩, hn⟩
  have hrw := relaxOne_eq (e := (v, w)) (q := q) hc hn
  simp only at hrw
  rw [hrw]
  by_cases hup : dc + w < dn
  · rw [if_pos hup]
    have hw : 0 ≤ w := nonneg_edge hg.nonneg he
    have hbc : 0 ≤ dc ∧ dc ≤ INTMAX := hd.bounds _ (mlookup_mem hc)
    have hvcur : v ≠ cur := by
      intro hvc
      rw [hvc, hc] at hn
      cases hn
      omega
    refine ⟨dinvc_update hg hd hcur hc hn he hup, ?_, ?_, ?_, ?_, ?_, ?_⟩
    · intro x
      by_cases hx : x = v
      · subst hx
        rw [dOf_pathsSet_self, dOf_eq hn]
        simp only
        omega
      · rw [dOf_pathsSet_other hx]
    · rw [dOf_pathsSet_other (fun h : cur = v => hvcur h.symm)]
    · intro y hy
      exact mem_qInsert.mpr (Or.inr hy)
    · intro u hq
      rcases hq with ⟨y, hy, hyu⟩ | hrel
      · exact Or.inl ⟨y, mem_qInsert.mpr (Or.inr hy), hyu⟩
      · by_cases hu : u = v
        · exact Or.inl ⟨(dc + w, v), mem_qInsert.mpr (Or.inl rfl), hu.symm⟩
        · refine Or.inr ?_
          intro vw hvw
          have h1 : dOf (pathsSet p v (dc + w, cur)) vw.1 ≤ dOf p vw.1 := by
            by_cases hx : vw.1 = v
            · subst hx
              rw [dOf_pathsSet_self, dOf_eq hn]
              simp only
              omega
            · rw [dOf_pathsSet_other hx]
          have h2 : dOf (pathsSet p v (dc + w, cur)) u = dOf p u :=
            dOf_pathsSet_other hu
          have h3 := hrel vw hvw
          calc dOf (pathsSet p v (dc + w, cur)) vw.1 ≤ dOf p vw.1 := h1
            _ ≤ dOf p u + vw.2 := h3
            _ = dOf (pathsSet p v (dc + w, cur)) u + vw.2 := by rw [h2]
    · rw [dOf_pathsSet_self, dOf_pathsSet_other (fun h : cur = v => hvcur h.symm)]
      rw [dOf_eq hc]
    · have h1 := sumD_pathsSet ((dc + w : Int), cur) hn
      have h2 := qInsert_length q (dc + w, v)
      have hnn : 0 ≤ dc + w := by omega
      simp only at h1
      show 2 * sumD (pathsSet p v (dc + w, cur)) + (qInsert q (dc + w, v)).length ≤
        2 * sumD p + q.length
      omega
  · rw [if_neg hup]
    have h1 : dOf p v = dn := dOf_eq hn
    have h2 : dOf p cur = dc := dOf_eq hc
    refine ⟨hd, fun x => le_refl _, rfl, fun y hy => hy, fun u hq => hq, ?_, ?_⟩
    · show dOf p v ≤ dOf p cur + w
      omega
    · show 2 * sumD p + q.length ≤ 2 * sumD p + q.length
      exact le_refl _

theorem relaxAll_props {g : Graph} {s cur : String} (hg : GOK g s)
    (hcur : hasNode g cur = true) :
    ∀ (es : EdgeSet) {p : Paths} {q : Queue}, DInvC g s p q →
    (∀ e ∈ es, e ∈ edgesOf g cur) →
    DInvC g s (relaxAll cur es p q).1 (relaxAll cur es p q).2 ∧
    (∀ x, dOf (relaxAll cur es p q).1 x ≤ dOf p x) ∧
    dOf (relaxAll cur es p q).1 cur = dOf p cur ∧
    (∀ y ∈ q, y ∈ (relaxAll cur es p q).2) ∧
    (∀ u, DqAt g p q u → DqAt g (relaxAll cur es p q).1 (relaxAll cur es p q).2 u) ∧
    (∀ e ∈ es, dOf (relaxAll cur es p q).1 e.1 ≤
      dOf (relaxAll cur es p q).1 cur + e.2) ∧
    2 * sumD (relaxAll cur es p q).1 + (relaxAll cur es p q).2.length ≤
      2 * sumD p + q.length
  | [], p, q, hd, _ => ⟨hd, fun _ => le_refl _, rfl, fun _ hy => hy, fun _ h => h,
      fun e he => absurd he (List.not_mem_nil e), le_refl _⟩
  | e :: es, p, q, hd, hes => by
    obtain ⟨hd1, hmono1, hcur1, hq1, hdq1, hrel1, hm1⟩ :=
      relaxOne_props (e := e) hg hd hcur (hes e (List.mem_cons_self e es))
    obtain ⟨hd2, hmono2, hcur2, hq2, hdq2, hrel2, hm2⟩ :=
      relaxAll_props hg hcur es hd1
        (fun x hx => hes x (List.mem_cons_of_mem e hx))
    have heq : relaxAll cur (e :: es) p q =
        relaxAll cur es (relaxOne cur e (p, q)).1 (relaxOne cur e (p, q)).2 := by
      rw [relaxAll, relaxAll, List.foldl_cons, Prod.mk.eta]
    rw [heq]
    refine ⟨hd2, ?_, ?_, ?_, ?_, ?_, ?_⟩
    · exact fun x => (hmono2 x).trans (hmono1 x)
    · exact hcur2.trans hcur1
    · exact fun y hy => hq2 _ (hq1 y hy)
    · exact fun u h => hdq2 u (hdq1 u h)
    · intro e' he'
      rcases List.mem_cons.mp he' with h | h
      · rw [h]
        calc dOf (relaxAll cur es (relaxOne cur e (p, q)).1
              (relaxOne cur e (p, q)).2).1 e.1
            ≤ dOf (relaxOne cur e (p, q)).1 e.1 := hmono2 e.1
          _ ≤ dOf (relaxOne cur e (p, q)).1 cur + e.2 := hrel1
          _ = dOf (relaxAll cur es (relaxOne cur e (p, q)).1
              (relaxOne cur e (p, q)).2).1 cur + e.2 := by rw [hcur2]
      · exact hrel2 e' h
    · exact hm2.trans hm1

theorem loop_final {g : Graph} {s : String} (hg : GOK g s) :
    ∀ (f : Nat) {p : Paths} {q : Queue} {p' : Paths}, DInvC g s p q →
    (∀ u, hasNode g u = true → DqAt g p q u) →
    dijkstraLoop g f p q = some p' →
    DInvC g s p' [] ∧ NoTense g p'
  | f, p, [], p', hd, hdq, hrun => by
    have heq : some p = some p' := by
      rw [← hrun]
      cases f <;> rfl
    cases heq
    refine ⟨⟨hd.keys, hd.bounds, hd.src0, hd.unreachpred, by simp, hd.reach,
      hd.jrel, hd.acc⟩, ?_⟩
    intro u hu vw hvw
    rcases hdq u hu with ⟨y, hy, _⟩ | hrel
    · exact absurd hy (List.not_mem_nil y)
    · exact hrel vw hvw
  | 0, p, e :: rest, p', _, _, hrun => by
    simp [dijkstraLoop] at hrun
  | Nat.succ f, p, e :: rest, p', hd, hdq, hrun => by
    have hcur : hasNode g e.2 = true := hd.qkeys e (List.mem_cons_self e rest)
    obtain ⟨es, hes⟩ : ∃ es, lookupGraph g e.2 = some es := by
      rw [hasNode] at hcur
      exact Option.isSome_iff_exists.mp hcur
    have hesof : edgesOf g e.2 = es := by rw [edgesOf, hes]; rfl
    simp only [dijkstraLoop, hes] at hrun
    have hd' : DInvC g s p rest :=
      ⟨hd.keys, hd.bounds, hd.src0, hd.unreachpred,
        fun y hy => hd.qkeys y (List.mem_cons_of_mem e hy), hd.reach, hd.jrel, hd.acc⟩
    have hsub : ∀ x ∈ es, x ∈ edgesOf g e.2 := by
      intro x hx
      rw [hesof]
      exact hx
    obtain ⟨hd2, _, _, _, hdq2, hrel2, _⟩ :=
      relaxAll_props hg hcur es hd' hsub
    refine loop_final hg f hd2 ?_ hrun
    intro u hu
    by_cases hue : u = e.2
    · subst hue
      refine Or.inr ?_
      intro vw hvw
      rw [hesof] at hvw
      exact hrel2 vw hvw
    · refine hdq2 u ?_
      rcases hdq u hu with ⟨y, hy, hyu⟩ | hrel
      · rcases List.mem_cons.mp hy with h | h
        · exact absurd (show e.2 = u by rw [← h, hyu]) (fun hx => hue hx.symm)
        · exact Or.inl ⟨y, h, hyu⟩
      · exact Or.inr hrel

theorem loop_term {g : Graph} {s : String} (hg : GOK g s) :
    ∀ (f : Nat) {p : Paths} {q : Queue}, DInvC g s p q →
    2 * sumD p + q.length < f →
    (dijkstraLoop g f p q).isSome = true
  | f, p, [], _, _ => by cases f <;> rfl
  | 0, p, e :: rest, hd, hm => by
    exact absurd hm (by omega)
  | Nat.succ f, p, e :: rest, hd, hm => by
    have hcur : hasNode g e.2 = true := hd.qkeys e (List.mem_cons_self e rest)
    obtain ⟨es, hes⟩ : ∃ es, lookupGraph g e.2 = some es := by
      rw [hasNode] at hcur
      exact Option.isSome_iff_exists.mp hcur
    have hesof : edgesOf g e.2 = es := by rw [edgesOf, hes]; rfl
    simp only [dijkstraLoop, hes]
    have hd' : DInvC g s p rest :=
      ⟨hd.keys, hd.bounds, hd.src0, hd.unreachpred,
        fun y hy => hd.qkeys y (List.mem_cons_of_mem e hy), hd.reach, hd.jrel, hd.acc⟩
    have hsub : ∀ x ∈ es, x ∈ edgesOf g e.2 := by
      intro x hx
      rw [hesof]
      exact hx
    obtain ⟨hd2, _, _, _, _, _, hm2⟩ :=
      relaxAll_props hg hcur es hd' hsub
    refine loop_term hg f hd2 ?_
    simp only [List.length_cons] at hm
    omega

theorem mlookup_initPaths : ∀ {g : Graph} (s k : String),
    mlookup (initPaths g s) k =
      (mlookup g k).map (fun _ => if k = s then ((0 : Int), "") else (INTMAX, ""))
  | [], s, k => rfl
  | kv :: rest, s, k => by
    by_cases he : k = kv.1
    · simp only [initPaths, List.map_cons, mlookup, if_pos he, Option.map_some']
      rw [he]
    · simp only [initPaths, List.map_cons, mlookup, if_neg he]
      exact mlookup_initPaths s k

theorem keysOf_initPaths : ∀ (g : Graph) (s : String),
    keysOf (initPaths g s) = keysOf g
  | [], _ => rfl
  | kv :: rest, s => by
    simp only [initPaths, keysOf, List.map_cons]
    exact congrArg (kv.1 :: ·) (keysOf_initPaths rest s)

theorem INTMAX_pos : (0 : Int) < INTMAX := by decide

theorem dOf_init {g : Graph} {s x : String} (hx : hasNode g x = true) :
    dOf (initPaths g s) x = if x = s then 0 else INTMAX := by
  rw [hasNode, lookupGraph] at hx
  obtain ⟨es, hes⟩ := Option.isSome_iff_exists.mp hx
  rw [dOf, mlookup_initPaths s x, hes, Option.map_some']
  by_cases h : x = s <;> simp [h]

theorem dOf_init_le (g : Graph) (s x : String) : dOf (initPaths g s) x ≤ INTMAX := by
  rw [dOf, mlookup_initPaths s x]
  rcases mlookup g x with _ | es
  · simp
  · simp only [Option.map_some']
    by_cases h : x = s
    · simp only [if_pos h]
      exact le_of_lt INTMAX_pos
    · simp [if_neg h]

theorem dinv_init {g : Graph} {s : String} (hg : GOK g s) :
    DInvC g s (initPaths g s) [((0 : Int), s)] := by
  have hkeys := keysOf_initPaths g s
  have hps : KSorted (initPaths g s) := ksorted_of_keys hkeys hg.sorted
  have hmemchar : ∀ kv ∈ initPaths g s,
      kv.2 = (if kv.1 = s then ((0 : Int), "") else (INTMAX, "")) := by
    intro kv hkv
    have hlk := mem_mlookup hps (by simpa using hkv)
    have hk : kv.1 ∈ keysOf g := by
      rw [← hkeys]
      exact List.mem_map_of_mem Prod.fst hkv
    obtain ⟨es, hes⟩ := mem_keys_lookup hk
    rw [mlookup_initPaths s kv.1, hes, Option.map_some'] at hlk
    exact (Option.some.inj hlk).symm
  refine ⟨hkeys, ?_, ?_, ?_, ?_, ?_, ?_, ?_⟩
  · intro kv hkv
    have := hmemchar kv hkv
    by_cases h : kv.1 = s
    · rw [this, if_pos h]
      exact ⟨le_refl 0, le_of_lt INTMAX_pos⟩
    · rw [this, if_neg h]
      exact ⟨le_of_lt INTMAX_pos, le_refl _⟩
  · have hs : s ∈ keysOf g := hasNode_iff_mem_keys.mp hg.srcnode
    obtain ⟨es, hes⟩ := mem_keys_lookup hs
    rw [mlookup_initPaths s s, hes, Option.map_some', if_pos rfl]
  · intro kv hkv _ hks
    have := hmemchar kv hkv
    rw [this, if_neg hks]
  · intro e he
    rcases List.mem_cons.mp he with h | h
    · rw [h]
      exact hg.srcnode
    · exact absurd h (List.not_mem_nil e)
  · intro kv hkv hlt
    have hc := hmemchar kv hkv
    by_cases h : kv.1 = s
    · rw [h, hc, if_pos h]
      exact Reach.refl
    · rw [hc, if_neg h] at hlt
      simp only at hlt
      exact absurd hlt (by omega)
  · intro kv hkv hpe
    have hc := hmemchar kv hkv
    rw [hc] at hpe
    by_cases h : kv.1 = s
    · rw [if_pos h] at hpe
      exact absurd rfl hpe
    · rw [if_neg h] at hpe
      exact absurd rfl hpe
  · intro kv hkv
    have hc := hmemchar kv hkv
    have hlk := mem_mlookup hps (by simpa using hkv)
    refine AccPred.base hlk ?_
    rw [hc]
    by_cases h : kv.1 = s <;> simp [h]

theorem dqat_init {g : Graph} {s : String} (hg : GOK g s) :
    ∀ u, hasNode g u = true → DqAt g (initPaths g s) [((0 : Int), s)] u := by
  intro u hu
  by_cases hus : u = s
  · exact Or.inl ⟨(0, s), List.mem_cons_self _ _, hus.symm⟩
  · refine Or.inr ?_
    intro vw hvw
    have h1 : dOf (initPaths g s) u = INTMAX := by
      rw [dOf_init hu, if_neg hus]
    have h2 : dOf (initPaths g s) vw.1 ≤ INTMAX := dOf_init_le g s vw.1
    have h3 : 0 ≤ vw.2 := nonneg_edge hg.nonneg hvw
    omega

theorem sumD_cons (kv : String × PEntry) (p : Paths) :
    sumD (kv :: p) = kv.2.1.toNat + sumD p := rfl

theorem initPaths_cons (kv : String × EdgeSet) (g : Graph) (s : String) :
    initPaths (kv :: g) s =
      (kv.1, if kv.1 = s then ((0 : Int), "") else (INTMAX, "")) :: initPaths g s := rfl

theorem sumD_init_le (g : Graph) (s : String) :
    sumD (initPaths g s) ≤ g.length * INTMAX.toNat := by
  induction g with
  | nil =>
    show (0 : Nat) ≤ 0 * INTMAX.toNat
    omega
  | cons kv rest ih =>
    rw [initPaths_cons, sumD_cons, List.length_cons, Nat.succ_mul]
    have hv : ((kv.1, if kv.1 = s then ((0 : Int), "") else (INTMAX, "")) :
        String × PEntry).2.1.toNat ≤ INTMAX.toNat := by
      by_cases h : kv.1 = s <;> simp [h]
    omega

theorem dijkstra_run {g : Graph} {s : String} (fin : String) (hg : GOK g s) :
    ∃ m, Dijkstra g s fin = some m ∧ DInvC g s m [] ∧ NoTense g m := by
  have hd0 := dinv_init hg
  have hmeas : 2 * sumD (initPaths g s) + [((0 : Int), s)].length < dFuel g := by
    have := sumD_init_le g s
    rw [dFuel, Nat.mul_assoc]
    simp only [List.length_singleton]
    omega
  have hterm := loop_term hg (dFuel g) hd0 hmeas
  obtain ⟨m, hm⟩ := Option.isSome_iff_exists.mp hterm
  refine ⟨m, hm, loop_final hg (dFuel g) hd0 (dqat_init hg) hm⟩

theorem final_le_reach {g : Graph} {s : String} {m : Paths} (hg : GOK g s)
    (hd : DInvC g s m []) (hnt : NoTense g m) :
    ∀ {v : String} {W : Int}, Reach g s v W → hasNode g v = true ∧ dOf m v ≤ W := by
  intro v W h
  induction h with
  | refl =>
    refine ⟨hg.srcnode, ?_⟩
    rw [dOf_eq hd.src0]
  | @step u v w d hr he ih =>
    refine ⟨hasNode_of_edge hg.closed he, ?_⟩
    have h1 := hnt u ih.1 (v, w) he
    have h2 := ih.2
    simp only at h1
    omega

theorem esorted_loadRow {g : Graph} {r : String × String × Int}
    (hs : KSorted g) (he : SortedEdges g) : SortedEdges (loadRow g r) := by
  intro kv hkv
  have hg1 : KSorted (graphAddEdge g r.1 r.2) := ksorted_addEdge hs
  have hlk : mlookup (loadRow g r) kv.1 = some kv.2 :=
    mem_mlookup (ksorted_loadRow hs) (by simpa using hkv)
  have hfromg1 : ∀ es1, mlookup (graphAddEdge g r.1 r.2) kv.1 = some es1 →
      List.Pairwise (fun a b => edgeLtb a b = true) es1 := by
    intro es1 hes1
    by_cases he1 : kv.1 = r.1
    · rw [he1, lookup_addEdge_self hs] at hes1
      cases hes1
      rcases h0 : mlookup g r.1 with _ | es0
      · simp only [Option.getD_none]
        exact esorted_setInsertEdge List.Pairwise.nil
      · simp only [Option.getD_some]
        exact esorted_setInsertEdge (he (r.1, es0) (mlookup_mem h0))
    · rw [lookup_addEdge_other _ _ _ _ he1] at hes1
      exact he (kv.1, es1) (mlookup_mem hes1)
  by_cases hed : kv.1 = r.2.1
  · rw [loadRow, graphEnsure, hed, mlookup_mins_self hg1] at hlk
    have hlk2 := Option.some.inj hlk
    rcases h1 : mlookup (graphAddEdge g r.1 r.2) r.2.1 with _ | es1
    · rw [h1] at hlk2
      simp only [Option.getD_none] at hlk2
      rw [← hlk2]
      exact List.Pairwise.nil
    · rw [h1] at hlk2
      simp only [Option.getD_some] at hlk2
      rw [← hlk2]
      exact hfromg1 es1 (by rw [hed]; exact h1)
  · rw [loadRow, graphEnsure, mlookup_mins_other _ _ _ _ hed] at hlk
    exact hfromg1 kv.2 hlk

theorem load_foldl_es : ∀ {rows : List (String × String × Int)} {g : Graph},
    KSorted g → SortedEdges g → SortedEdges (rows.foldl loadRow g)
  | [], _, _, he => he
  | r :: rest, g, hs, he => by
    rw [List.foldl_cons]
    exact load_foldl_es (ksorted_loadRow hs) (esorted_loadRow hs he)

theorem loadFromFile_esorted (rows : List (String × String × Int)) :
    SortedEdges (loadFromFile rows) :=
  load_foldl_es List.Pairwise.nil (fun kv hkv => absurd hkv (List.not_mem_nil kv))

theorem gok_load {rows : List (String × String × Int)} {s : String}
    (hv : ValidRows rows) (hs : hasNode (loadFromFile rows) s = true) :
    GOK (loadFromFile rows) s :=
  ⟨loadFromFile_sorted rows, loadFromFile_esorted rows, loadFromFile_closed rows,
    loadFromFile_nonneg hv, loadFromFile_noempty hv, hs⟩

/-- Claim C1, amended: on a loaded graph with non-negative weights, if
origin and destination are keys and some directed path between them has
weight strictly below the INT_MAX sentinel (the amendment the
counterexample forces), then the distance the engine records for the
destination equals the minimum path weight: it is itself the weight of a
path and bounds every path weight from below. -/
theorem C1_min_distance (rows : List (String × String × Int))
    (hv : ValidRows rows) (o d fin : String)
    (ho : hasNode (loadFromFile rows) o = true)
    (hdst : hasNode (loadFromFile rows) d = true)
    (W : Int) (hW : Reach (loadFromFile rows) o d W) (hlt : W < INTMAX) :
    ∃ m δ pr, Dijkstra (loadFromFile rows) o fin = some m ∧
      mlookup m d = some (δ, pr) ∧ Reach (loadFromFile rows) o d δ ∧
      (∀ V, Reach (loadFromFile rows) o d V → δ ≤ V) := by
  have hg := gok_load hv ho
  obtain ⟨m, hrun, hdinv, hnt⟩ := dijkstra_run fin hg
  have hdk : d ∈ keysOf m := by
    rw [hdinv.keys, ← hasNode_iff_mem_keys]
    exact hdst
  obtain ⟨⟨δ, pr⟩, hlk⟩ := mem_keys_lookup hdk
  have hub : ∀ V, Reach (loadFromFile rows) o d V → δ ≤ V := by
    intro V hV
    have h := (final_le_reach hg hdinv hnt hV).2
    rw [dOf_eq hlk] at h
    exact h
  have hδlt : δ < INTMAX := lt_of_le_of_lt (hub W hW) hlt
  have hre : Reach (loadFromFile rows) o d δ :=
    hdinv.reach _ (mlookup_mem hlk) hδlt
  exact ⟨m, δ, pr, hrun, hlk, hre, hub⟩

/-- Witness for C1 at the spec's own scenario `A B 5`, `B C 3`,
`A C 10`: the recorded distance for `C` from `A` is the minimum path
weight (8, via `A -> B -> C`). -/
theorem C1_min_distance_witness :
    ValidRows [("A", "B", (5 : Int)), ("B", "C", 3), ("A", "C", 10)] ∧
    hasNode (loadFromFile [("A", "B", (5 : Int)), ("B", "C", 3), ("A", "C", 10)]) "A"
      = true ∧
    hasNode (loadFromFile [("A", "B", (5 : Int)), ("B", "C", 3), ("A", "C", 10)]) "C"
      = true ∧
    Reach (loadFromFile [("A", "B", (5 : Int)), ("B", "C", 3), ("A", "C", 10)])
      "A" "C" 10 ∧
    (10 : Int) < INTMAX ∧
    (∃ m δ pr,
      Dijkstra (loadFromFile [("A", "B", (5 : Int)), ("B", "C", 3), ("A", "C", 10)])
        "A" "C" = some m ∧
      mlookup m "C" = some (δ, pr) ∧
      Reach (loadFromFile [("A", "B", (5 : Int)), ("B", "C", 3), ("A", "C", 10)])
        "A" "C" δ ∧
      (∀ V,
        Reach (loadFromFile [("A", "B", (5 : Int)), ("B", "C", 3), ("A", "C", 10)])
          "A" "C" V → δ ≤ V)) := by
  have hreach : Reach
      (loadFromFile [("A", "B", (5 : Int)), ("B", "C", 3), ("A", "C", 10)])
      "A" "C" 10 := by
    have h := Reach.step (Reach.refl)
      (show ("C", (10 : Int)) ∈ edgesOf
        (loadFromFile [("A", "B", (5 : Int)), ("B", "C", 3), ("A", "C", 10)]) "A"
        by decide)
    simpa using h
  exact ⟨by unfold ValidRows; decide, by decide, by decide, hreach, by decide,
    C1_min_distance [("A", "B", (5 : Int)), ("B", "C", 3), ("A", "C", 10)]
      (by unfold ValidRows; decide) "A" "C" "C" (by decide) (by decide) 10 hreach
      (by decide)⟩

theorem cex_reach_char :
    ∀ (v : String) (W : Int),
      Reach (loadFromFile [("A", "B", (2147483647 : Int)), ("B", "C", (1 : Int))])
        "A" v W →
      (v = "A" ∧ W = 0) ∨ (v = "B" ∧ W = 2147483647) ∨ (v = "C" ∧ W = 2147483648) := by
  intro v W h
  induction h with
  | refl => exact Or.inl ⟨rfl, rfl⟩
  | @step u v w d hr he ih =>
    rcases ih with ⟨hu, hd⟩ | ⟨hu, hd⟩ | ⟨hu, hd⟩
    · subst hu
      have hE : edgesOf
          (loadFromFile [("A", "B", (2147483647 : Int)), ("B", "C", (1 : Int))]) "A"
          = [("B", (2147483647 : Int))] := by decide
      rw [hE] at he
      simp only [List.mem_singleton, Prod.mk.injEq] at he
      exact Or.inr (Or.inl ⟨he.1, by rw [hd, he.2]; decide⟩)
    · subst hu
      have hE : edgesOf
          (loadFromFile [("A", "B", (2147483647 : Int)), ("B", "C", (1 : Int))]) "B"
          = [("C", (1 : Int))] := by decide
      rw [hE] at he
      simp only [List.mem_singleton, Prod.mk.injEq] at he
      refine Or.inr (Or.inr ⟨he.1, ?_⟩)
      rw [hd, he.2]
      decide
    · subst hu
      have hE : edgesOf
          (loadFromFile [("A", "B", (2147483647 : Int)), ("B", "C", (1 : Int))]) "C"
          = [] := by decide
      rw [hE] at he
      exact absurd he (List.not_mem_nil _)

/-- Counterexample to claim C1 as stated: with the non-negative edge
list `A B 2147483647`, `B C 1`, both `A` and `C` are keys and the single
path `A -> B -> C` has weight 2147483648, yet the engine records
2147483647 for `C` (the relaxation candidate `0 + 2147483647` fails the
strict comparison against the INT_MAX sentinel, so `B` and then `C` are
never relaxed).  The recorded distance is not the minimum path weight. -/
theorem C1_sentinel_counterexample :
    (∃ m, Dijkstra (loadFromFile
        [("A", "B", (2147483647 : Int)), ("B", "C", (1 : Int))]) "A" "C" = some m ∧
      mlookup m "C" = some ((2147483647 : Int), "")) ∧
    Reach (loadFromFile [("A", "B", (2147483647 : Int)), ("B", "C", (1 : Int))])
      "A" "C" 2147483648 ∧
    (∀ W, Reach (loadFromFile [("A", "B", (2147483647 : Int)), ("B", "C", (1 : Int))])
      "A" "C" W → W = 2147483648) ∧
    (2147483647 : Int) ≠ 2147483648 := by
  refine ⟨⟨[("A", ((0 : Int), "")), ("B", ((2147483647 : Int), "")),
      ("C", ((2147483647 : Int), ""))], by decide, by decide⟩, ?_, ?_, by decide⟩
  · have h1 : Reach (loadFromFile
        [("A", "B", (2147483647 : Int)), ("B", "C", (1 : Int))]) "A" "B"
        ((0 : Int) + 2147483647) :=
      Reach.step Reach.refl (by decide)
    have h2 : Reach (loadFromFile
        [("A", "B", (2147483647 : Int)), ("B", "C", (1 : Int))]) "A" "C"
        (((0 : Int) + 2147483647) + 1) :=
      Reach.step h1 (by decide)
    simpa using h2
  · intro W hW
    rcases cex_reach_char "C" W hW with ⟨h, _⟩ | ⟨h, _⟩ | ⟨_, h⟩
    · exact absurd h (by decide)
    · exact absurd h (by decide)
    · exact h

theorem lookupGraph_none_of_not {g : Graph} {k : String}
    (h : hasNode g k = false) : lookupGraph g k = none := by
  rw [hasNode] at h
  exact Option.not_isSome_iff_eq_none.mp (by rw [h]; exact Bool.false_ne_true)

/-- Claim C9: invoking the engine with a source that is not a key of the
graph still executes and returns normally (one frontier pop, then the
`break`); the returned map carries the unreached record
`(INT_MAX, "")` for every graph node, its key set is exactly the
graph's, and the source itself is the one node with no entry. -/
theorem C9_unknown_source (g : Graph) (start fin : String)
    (h : hasNode g start = false) :
    Dijkstra g start fin = some (initPaths g start) ∧
    (∀ kv ∈ initPaths g start, kv.2 = (INTMAX, "")) ∧
    mlookup (initPaths g start) start = none ∧
    keysOf (initPaths g start) = keysOf g := by
  have hlkg : lookupGraph g start = none := lookupGraph_none_of_not h
  refine ⟨?_, ?_, ?_, keysOf_initPaths g start⟩
  · rw [Dijkstra]
    rcases hfuel : dFuel g with _ | f
    · rw [dFuel] at hfuel
      omega
    · simp only [dijkstraLoop, hlkg]
  · intro kv hkv
    rcases List.mem_map.mp hkv with ⟨x, hx, hxe⟩
    have hxs : x.1 ≠ start := by
      intro he
      have : hasNode g start = true := by
        rw [hasNode_iff_mem_keys, ← he]
        exact List.mem_map_of_mem Prod.fst hx
      rw [this] at h
      exact absurd h (by decide)
    rw [← hxe]
    simp [if_neg hxs]
  · rw [lookupGraph] at hlkg
    rw [mlookup_initPaths, hlkg]
    rfl

/-- Witness for C9: graph from the single edge `A B 1`, unknown source
`Z`. -/
theorem C9_unknown_source_witness :
    hasNode (loadFromFile [("A", "B", (1 : Int))]) "Z" = false ∧
    (Dijkstra (loadFromFile [("A", "B", (1 : Int))]) "Z" "A" =
      some (initPaths (loadFromFile [("A", "B", (1 : Int))]) "Z") ∧
    (∀ kv ∈ initPaths (loadFromFile [("A", "B", (1 : Int))]) "Z",
      kv.2 = (INTMAX, "")) ∧
    mlookup (initPaths (loadFromFile [("A", "B", (1 : Int))]) "Z") "Z" = none ∧
    keysOf (initPaths (loadFromFile [("A", "B", (1 : Int))]) "Z") =
      keysOf (loadFromFile [("A", "B", (1 : Int))])) :=
  ⟨by decide, C9_unknown_source (loadFromFile [("A", "B", (1 : Int))]) "Z" "A"
    (by decide)⟩

theorem pchain_head {p : Paths} : ∀ {v : String} {l : List String},
    PChain p v l → l.head? = some v := by
  intro v l h
  cases h with
  | last _ _ => rfl
  | cons _ _ _ => rfl

theorem pchain_unique {p : Paths} : ∀ {v : String} {l₁ l₂ : List String},
    PChain p v l₁ → PChain p v l₂ → l₁ = l₂ := by
  intro v l₁ l₂ h1
  induction h1 generalizing l₂ with
  | @last z pe hlk he =>
    intro h2
    cases h2 with
    | last hlk2 he2 => rfl
    | cons hlk2 hne2 hch2 =>
      rw [hlk] at hlk2
      cases hlk2
      exact absurd he hne2
  | @cons z pe l hlk hne hch ih =>
    intro h2
    cases h2 with
    | last hlk2 he2 =>
      rw [hlk] at hlk2
      cases hlk2
      exact absurd he2 hne
    | @cons _ pe2 l2 hlk2 hne2 hch2 =>
      rw [hlk] at hlk2
      cases hlk2
      rw [ih hch2]

theorem pchain_mem_star {p : Paths} : ∀ {v x : String} {l : List String},
    PChain p v l → x ∈ l → PredStar p v x := by
  intro v x l h
  induction h with
  | @last z pe hlk he =>
    intro hm
    rcases List.mem_singleton.mp hm with rfl
    exact PredStar.refl x
  | @cons z pe l hlk hne hch ih =>
    intro hm
    rcases List.mem_cons.mp hm with h | h
    · rw [h]
      exact PredStar.refl z
    · exact PredStar.step hlk hne (ih h)

theorem pchain_suffix {p : Paths} : ∀ {v x : String} {l : List String},
    PChain p v l → x ∈ l → ∃ lx l₁, PChain p x lx ∧ l = l₁ ++ lx := by
  intro v x l h
  induction h with
  | @last z pe hlk he =>
    intro hm
    rcases List.mem_singleton.mp hm with rfl
    exact ⟨[x], [], PChain.last hlk he, rfl⟩
  | @cons z pe l hlk hne hch ih =>
    intro hm
    rcases List.mem_cons.mp hm with h | h
    · rw [h]
      exact ⟨z :: l, [], PChain.cons hlk hne hch, rfl⟩
    · rcases ih h with ⟨lx, l₁, hchx, heq⟩
      exact ⟨lx, z :: l₁, hchx, by rw [heq]; rfl⟩

theorem pchain_sub_keys {p : Paths} : ∀ {v : String} {l : List String},
    PChain p v l → ∀ x ∈ l, x ∈ keysOf p := by
  intro v l h
  induction h with
  | @last z pe hlk he =>
    intro x hx
    rcases List.mem_singleton.mp hx with rfl
    exact mlookup_isSome_iff.mp (by rw [hlk]; rfl)
  | @cons z pe l hlk hne hch ih =>
    intro x hx
    rcases List.mem_cons.mp hx with h | h
    · rw [h]
      exact mlookup_isSome_iff.mp (by rw [hlk]; rfl)
    · exact ih x h

theorem acc_pchain_nodup {p : Paths} : ∀ {v : String},
    AccPred p v → ∃ l, PChain p v l ∧ l.Nodup := by
  intro v h
  induction h with
  | @base z pe hlk he =>
    exact ⟨[z], PChain.last hlk he, List.nodup_singleton z⟩
  | @step z pe hlk hne hacc ih =>
    rcases ih with ⟨lu, hchu, hndu⟩
    refine ⟨z :: lu, PChain.cons hlk hne hchu, ?_⟩
    rw [List.nodup_cons]
    refine ⟨?_, hndu⟩
    intro hmem
    rcases pchain_suffix hchu hmem with ⟨lz, l₁, hchz, heq⟩
    have hchz2 : PChain p z (z :: lu) := PChain.cons hlk hne hchu
    have := pchain_unique hchz hchz2
    rw [this] at heq
    have hlen : lu.length = l₁.length + (lu.length + 1) := by
      have := congrArg List.length heq
      simpa using this
    omega

theorem pchain_last {p : Paths} : ∀ {v : String} {l : List String},
    PChain p v l → ∃ x pe, l.getLast? = some x ∧ mlookup p x = some pe ∧
      pe.2 = "" ∧ x ∈ l := by
  intro v l h
  induction h with
  | @last z pe hlk he => exact ⟨z, pe, rfl, hlk, he, List.mem_singleton_self z⟩
  | @cons z pe l hlk hne hch ih =>
    rcases ih with ⟨x, pex, hgl, hlkx, hex, hmem⟩
    refine ⟨x, pex, ?_, hlkx, hex, List.mem_cons_of_mem z hmem⟩
    rcases l with _ | ⟨a, l'⟩
    · cases hch
    · rw [List.getLast?_cons_cons]
      exact hgl

theorem nodup_length_le {l keys : List String} (hnd : l.Nodup)
    (hsub : ∀ x ∈ l, x ∈ keys) (hknd : keys.Nodup) : l.length ≤ keys.length := by
  classical
  have h1 : l.toFinset.card = l.length := List.toFinset_card_of_nodup hnd
  have h2 : keys.toFinset.card = keys.length := List.toFinset_card_of_nodup hknd
  have h3 : l.toFinset ⊆ keys.toFinset := by
    intro x hx
    rw [List.mem_toFinset] at hx ⊢
    exact hsub x hx
  have := Finset.card_le_card h3
  omega

theorem walkBack_of_pchain : ∀ {l : List String} {p : Paths} {v : String} {f : Nat},
    PChain p v l → (∀ x ∈ l, x ≠ "") → l.length ≤ f →
    walkBack f p v = some l := by
  intro l p v f hch
  induction hch generalizing f with
  | @last z pe hlk he =>
    intro hne hlen
    rcases f with _ | f'
    · simp at hlen
    · have hz : z ≠ "" := hne z (List.mem_singleton_self z)
      rw [walkBack, if_neg hz, lookupP, hlk]
      show Option.map (fun x => z :: x) (walkBack f' p pe.2) = some [z]
      rw [he]
      rcases f' with _ | f''
      · rw [walkBack, if_pos rfl]
        rfl
      · rw [walkBack, if_pos rfl]
        rfl
  | @cons z pe l hlk hpne hch ih =>
    intro hne hlen
    rcases f with _ | f'
    · simp at hlen
    · have hz : z ≠ "" := hne z (List.mem_cons_self z l)
      rw [walkBack, if_neg hz, lookupP, hlk]
      have hrec := ih (fun x hx => hne x (List.mem_cons_of_mem z hx))
        (f := f') (by simp at hlen; omega)
      show Option.map (fun x => z :: x) (walkBack f' p pe.2) = some (z :: l)
      rw [hrec]
      rfl

theorem esorted_find_min : ∀ {es : EdgeSet} {v : String} {w0 : Int},
    List.Pairwise (fun a b => edgeLtb a b = true) es → (v, w0) ∈ es →
    ∃ w', es.find? (fun nb => nb.1 == v) = some (v, w') ∧ w' ≤ w0 ∧
      (v, w') ∈ es := by
  intro es v w0 hs hm
  induction es with
  | nil => exact absurd hm (List.not_mem_nil _)
  | cons e rest ih =>
    rcases List.pairwise_cons.mp hs with ⟨hhd, hrest⟩
    by_cases hev : e.1 = v
    · refine ⟨e.2, ?_, ?_, ?_⟩
      · rw [List.find?_cons_of_pos _ (by simp [hev])]
        rw [← hev]
      · rcases List.mem_cons.mp hm with h | h
        · rw [← h] at hev
          simp only at hev
          rw [← h]
        · have := hhd _ h
          simp only [edgeLtb, Bool.or_eq_true, Bool.and_eq_true, beq_iff_eq,
            decide_eq_true_eq] at this
          rcases this with h' | ⟨_, h'⟩
          · rw [hev] at h'
            exact absurd h' (by simp [strLtb_irrefl])
          · exact le_of_lt h'
      · rw [← hev]
        exact List.mem_cons_self e rest
    · have hm' : (v, w0) ∈ rest := by
        rcases List.mem_cons.mp hm with h | h
        · exact absurd (by rw [← h]) (fun hx : e.1 = v => hev hx)
        · exact h
      rcases ih hrest hm' with ⟨w', hf, hle, hmem⟩
      refine ⟨w', ?_, hle, List.mem_cons_of_mem e hmem⟩
      rw [List.find?_cons_of_neg _ (by simp [hev])]
      exact hf

theorem committed_weight {g : Graph} {s : String} {m : Paths} (hg : GOK g s)
    (hd : DInvC g s m []) (hnt : NoTense g m) {x u : String} {dx : Int}
    (hlk : mlookup m x = some (dx, u)) (hu : u ≠ "") :
    ∃ du pu w', mlookup m u = some (du, pu) ∧
      (edgesOf g u).find? (fun nb => nb.1 == x) = some (x, w') ∧
      (x, w') ∈ edgesOf g u ∧ du + w' = dx ∧
      legWeight (edgesOf g u) x = w' := by
  rcases hd.jrel _ (mlookup_mem hlk) hu with ⟨w0, pe, hedge, hlku, hle, hlt⟩
  have hle2 : pe.1 + w0 ≤ dx := hle
  rcases mem_edgesOf hedge with ⟨es, hes, hxes, hmemg⟩
  have hsorted : List.Pairwise (fun a b => edgeLtb a b = true) (edgesOf g u) := by
    rw [edgesOf, hes]
    exact hg.esorted (u, es) hmemg
  rcases esorted_find_min hsorted hedge with ⟨w', hf, hwle, hwm⟩
  have hun : hasNode g u = true := by
    rw [hasNode_iff_mem_keys]
    exact List.mem_map_of_mem Prod.fst hmemg
  have hnt1 := hnt u hun (x, w') hwm
  simp only at hnt1
  have hdofx : dOf m x = dx := dOf_eq hlk
  have hdofu : dOf m u = pe.1 := dOf_eq hlku
  have hw'nn : 0 ≤ w' := nonneg_edge hg.nonneg hwm
  refine ⟨pe.1, pe.2, w', by rw [hlku], hf, hwm, by omega, ?_⟩
  rw [legWeight, hf]

theorem legsSum_append (L : List (String × String × Int)) (t : String × String × Int) :
    legsSum (L ++ [t]) = legsSum L + t.2.2 := by
  rw [legsSum, legsSum, List.map_append, List.sum_append]
  simp

theorem legsOf_snoc : ∀ {g : Graph} {ys : List String} {L : List (String × String × Int)}
    {u b : String} {es : EdgeSet},
    legsOf g ys = some L → ys.getLast? = some u → lookupGraph g u = some es →
    legsOf g (ys ++ [b]) = some (L ++ [(u, b, legWeight es b)])
  | g, [], L, u, b, es, hL, hlast, hes => by cases hL
  | g, [x], L, u, b, es, hL, hlast, hes => by
    have hL2 : L = [] := by
      rw [legsOf] at hL
      exact (Option.some.inj hL).symm
    have hu : u = x := (Option.some.inj hlast).symm
    subst hL2
    subst hu
    show legsOf g [u, b] = some [(u, b, legWeight es b)]
    rw [legsOf, hes]
    rfl
  | g, x :: y :: rest, L, u, b, es, hL, hlast, hes => by
    rcases hesx : lookupGraph g x with _ | esx
    · rw [legsOf, hesx] at hL
      cases hL
    · rw [legsOf, hesx] at hL
      have hL' : (legsOf g (y :: rest)).map ((x, y, legWeight esx y) :: ·) = some L := hL
      rcases hL0 : legsOf g (y :: rest) with _ | L0
      · rw [hL0] at hL'
        cases hL'
      · rw [hL0, Option.map_some'] at hL'
        have hLeq : L = (x, y, legWeight esx y) :: L0 := (Option.some.inj hL').symm
        have hlast2 : (y :: rest).getLast? = some u := by
          rw [← hlast, List.getLast?_cons_cons]
        have hrec := legsOf_snoc (b := b) hL0 hlast2 hes
        have hgoal : legsOf g ((x :: y :: rest) ++ [b]) =
            (legsOf g ((y :: rest) ++ [b])).map ((x, y, legWeight esx y) :: ·) := by
          show legsOf g (x :: y :: (rest ++ [b])) = _
          rw [legsOf, hesx]
          rfl
        rw [hgoal, hrec, Option.map_some', hLeq]
        rfl

theorem pchain_legs_sum {g : Graph} {s : String} {m : Paths} (hg : GOK g s)
    (hd : DInvC g s m []) (hnt : NoTense g m) :
    ∀ {v : String} {l : List String}, PChain m v l →
    ∃ L xlast, l.getLast? = some xlast ∧ legsOf g l.reverse = some L ∧
      legsSum L = dOf m v - dOf m xlast := by
  intro v l hch
  induction hch with
  | @last z pe hlk he =>
    refine ⟨[], z, rfl, ?_, by simp [legsSum]⟩
    show legsOf g [z] = some []
    rw [legsOf]
  | @cons z pe l hlk hne hch ih =>
    rcases ih with ⟨L, xlast, hglast, hlegs, hsum⟩
    have hheadu : l.head? = some pe.2 := pchain_head hch
    have humem : pe.2 ∈ l := List.mem_of_mem_head? hheadu
    have hukey : pe.2 ∈ keysOf g := by
      rw [← hd.keys]
      exact pchain_sub_keys hch pe.2 humem
    obtain ⟨es, hes⟩ : ∃ es, lookupGraph g pe.2 = some es := by
      rw [lookupGraph]
      exact mem_keys_lookup hukey
    have hrevlast : l.reverse.getLast? = some pe.2 := by
      rw [List.getLast?_reverse]
      exact hheadu
    have hsnoc := legsOf_snoc (b := z) hlegs hrevlast hes
    rcases committed_weight hg hd hnt hlk hne with
      ⟨du, pu, w', hlku, hfind, hwm, hsum2, hlw⟩
    have hesof : edgesOf g pe.2 = es := by rw [edgesOf, hes]; rfl
    refine ⟨L ++ [(pe.2, z, legWeight es z)], xlast, ?_, ?_, ?_⟩
    · rcases l with _ | ⟨a, l'⟩
      · cases hch
      · rw [List.getLast?_cons_cons]
        exact hglast
    · rw [List.reverse_cons]
      exact hsnoc
    · rw [legsSum_append, hsum]
      have hlw2 : legWeight es z = w' := by
        rw [← hesof]
        exact hlw
      have hdz : dOf m z = pe.1 := dOf_eq hlk
      have hdu : dOf m pe.2 = du := dOf_eq hlku
      simp only [hlw2]
      omega

theorem final_walk {g : Graph} {s : String} {m : Paths} (hg : GOK g s)
    (hd : DInvC g s m []) (hnt : NoTense g m) {dst : String} {dd : Int} {pd : String}
    (hlk : mlookup m dst = some (dd, pd)) (hddlt : dd < INTMAX) :
    ∃ l, PChain m dst l ∧ l.Nodup ∧ walkBack (m.length + 1) m dst = some l ∧
      l.head? = some dst ∧ l.getLast? = some s := by
  have hacc : AccPred m dst := hd.acc _ (mlookup_mem hlk)
  rcases acc_pchain_nodup hacc with ⟨l, hch, hnd⟩
  have hsubm : ∀ x ∈ l, x ∈ keysOf m := pchain_sub_keys hch
  have hsubg : ∀ x ∈ l, x ∈ keysOf g := fun x hx => hd.keys ▸ hsubm x hx
  have hne : ∀ x ∈ l, x ≠ "" := by
    intro x hx
    exact noempty_hasNode hg.noempty (hasNode_iff_mem_keys.mpr (hsubg x hx))
  have hmnd : (keysOf m).Nodup :=
    ksorted_keys_nodup (ksorted_of_keys hd.keys hg.sorted)
  have hlen : l.length ≤ m.length := by
    have := nodup_length_le hnd hsubm hmnd
    rw [keysOf, List.length_map] at this
    exact this
  have hwalk : walkBack (m.length + 1) m dst = some l :=
    walkBack_of_pchain hch hne (by omega)
  rcases pchain_last hch with ⟨x, pe, hgl, hlkx, hex, hxmem⟩
  have hxs : x = s := by
    by_contra hxs
    have hM : pe.1 = INTMAX := hd.unreachpred _ (mlookup_mem hlkx) hex hxs
    have hstar : PredStar m dst x := pchain_mem_star hch hxmem
    have hmono := predstar_d_mono hg hd hstar
    rw [dOf_eq hlk, dOf_eq hlkx, hM] at hmono
    simp only at hmono
    omega
  exact ⟨l, hch, hnd, hwalk, pchain_head hch, hxs ▸ hgl⟩

theorem createResultsMessage_some {g : Graph} {s : String} {m : Paths}
    (hg : GOK g s) (hd : DInvC g s m []) (hnt : NoTense g m) {dst : String}
    {dd : Int} {pd : String} (hlk : mlookup m dst = some (dd, pd))
    (hddlt : dd < INTMAX) (start : String) (total : Int) :
    ∃ msg, createResultsMessage start dst total g m = some msg := by
  rcases final_walk hg hd hnt hlk hddlt with ⟨l, hch, _, hwalk, _, _⟩
  rcases pchain_legs_sum hg hd hnt hch with ⟨L, xlast, _, hlegs, _⟩
  have hmsg : createResultsMessage start dst total g m =
      some ("Trasa: " ++ start ++ " --> " ++ dst ++ " (" ++ toString total ++
        " km):\n" ++ renderLegs L ++ "\n") := by
    rw [createResultsMessage, hwalk]
    show (match legsOf g l.reverse with
      | none => none
      | some legs =>
        some ("Trasa: " ++ start ++ " --> " ++ dst ++ " (" ++ toString total ++
          " km):\n" ++ renderLegs legs ++ "\n")) = _
    rw [hlegs]
  exact ⟨_, hmsg⟩

/-- Claim C10: over a loaded graph with non-negative weights, a known
source, and a destination whose final recorded distance is not the
sentinel, the backward predecessor walk of the reconstructor terminates
with every predecessor lookup succeeding, the collected list is
non-empty, starts at the destination and ends at the source (so after
reversal it runs source to destination), and the leg-emission loop
succeeds on it — in particular it is never entered with an empty list. -/
theorem C10_reconstruction_walk (rows : List (String × String × Int))
    (hv : ValidRows rows) (s dst fin : String)
    (hs : hasNode (loadFromFile rows) s = true)
    (m : Paths) (hrun : Dijkstra (loadFromFile rows) s fin = some m)
    (dd : Int) (pd : String) (hlk : mlookup m dst = some (dd, pd))
    (hne : dd ≠ INTMAX) :
    ∃ l legs, walkBack (m.length + 1) m dst = some l ∧ l ≠ [] ∧
      l.head? = some dst ∧ l.getLast? = some s ∧
      l.reverse.head? = some s ∧ l.reverse.getLast? = some dst ∧
      legsOf (loadFromFile rows) l.reverse = some legs := by
  have hg := gok_load hv hs
  obtain ⟨m', hrun', hdinv, hnt⟩ := dijkstra_run fin hg
  rw [hrun] at hrun'
  cases Option.some.inj hrun'
  have hbounds := hdinv.bounds _ (mlookup_mem hlk)
  have hddlt : dd < INTMAX := by
    have h1 : 0 ≤ dd ∧ dd ≤ INTMAX := hbounds
    omega
  rcases final_walk hg hdinv hnt hlk hddlt with ⟨l, hch, hnd, hwalk, hhead, hlast⟩
  rcases pchain_legs_sum hg hdinv hnt hch with ⟨L, xlast, _, hlegs, _⟩
  refine ⟨l, L, hwalk, ?_, hhead, hlast, ?_, ?_, hlegs⟩
  · intro hnil
    rw [hnil] at hhead
    cases hhead
  · rw [List.head?_reverse]
    exact hlast
  · rw [List.getLast?_reverse]
    exact hhead

/-- Witness for C10 at the spec scenario: source `A`, destination `C`,
walk `[C, B, A]`. -/
theorem C10_reconstruction_walk_witness :
    ValidRows [("A", "B", (5 : Int)), ("B", "C", 3), ("A", "C", 10)] ∧
    hasNode (loadFromFile [("A", "B", (5 : Int)), ("B", "C", 3), ("A", "C", 10)]) "A"
      = true ∧
    Dijkstra (loadFromFile [("A", "B", (5 : Int)), ("B", "C", 3), ("A", "C", 10)])
      "A" "C" = some [("A", ((0 : Int), "")), ("B", ((5 : Int), "A")),
        ("C", ((8 : Int), "B"))] ∧
    (∃ l legs,
      walkBack ([("A", ((0 : Int), "")), ("B", ((5 : Int), "A")),
        ("C", ((8 : Int), "B"))].length + 1)
        [("A", ((0 : Int), "")), ("B", ((5 : Int), "A")), ("C", ((8 : Int), "B"))]
        "C" = some l ∧ l ≠ [] ∧
      l.head? = some "C" ∧ l.getLast? = some "A" ∧
      l.reverse.head? = some "A" ∧ l.reverse.getLast? = some "C" ∧
      legsOf (loadFromFile [("A", "B", (5 : Int)), ("B", "C", 3), ("A", "C", 10)])
        l.reverse = some legs) :=
  ⟨by unfold ValidRows; decide, by decide, by decide,
    C10_reconstruction_walk [("A", "B", (5 : Int)), ("B", "C", 3), ("A", "C", 10)]
      (by unfold ValidRows; decide) "A" "C" "C" (by decide) _ (by decide) 8 "B"
      (by decide) (by decide)⟩

/-- Claim C2: for every query the resolver classifies as resolved (both
endpoints known, final distance not the sentinel), the per-leg distances
of the reconstructed leg list sum to exactly the total distance the
header reports, which is the destination's recorded distance. -/
theorem C2_legs_sum (rows : List (String × String × Int))
    (hv : ValidRows rows) (s dst fin : String)
    (hs : hasNode (loadFromFile rows) s = true)
    (m : Paths) (hrun : Dijkstra (loadFromFile rows) s fin = some m)
    (dd : Int) (pd : String) (hlk : mlookup m dst = some (dd, pd))
    (hne : dd ≠ INTMAX) :
    ∃ l legs, walkBack (m.length + 1) m dst = some l ∧
      legsOf (loadFromFile rows) l.reverse = some legs ∧
      legsSum legs = dd := by
  have hg := gok_load hv hs
  obtain ⟨m', hrun', hdinv, hnt⟩ := dijkstra_run fin hg
  rw [hrun] at hrun'
  cases Option.some.inj hrun'
  have hbounds : 0 ≤ dd ∧ dd ≤ INTMAX := hdinv.bounds _ (mlookup_mem hlk)
  have hddlt : dd < INTMAX := by omega
  rcases final_walk hg hdinv hnt hlk hddlt with ⟨l, hch, hnd, hwalk, hhead, hlast⟩
  rcases pchain_legs_sum hg hdinv hnt hch with ⟨L, xlast, hxlast, hlegs, hsum⟩
  have hxs : xlast = s := by
    rw [hxlast] at hlast
    exact Option.some.inj hlast
  have hds : dOf m xlast = 0 := by
    rw [hxs, dOf_eq hdinv.src0]
  have hdd : dOf m dst = dd := dOf_eq hlk
  refine ⟨l, L, hwalk, hlegs, ?_⟩
  omega

/-- Witness for C2 at the spec scenario: `A -> C` resolves with total 8
and legs `(A,B,5), (B,C,3)` summing to 8. -/
theorem C2_legs_sum_witness :
    ValidRows [("A", "B", (5 : Int)), ("B", "C", 3), ("A", "C", 10)] ∧
    hasNode (loadFromFile [("A", "B", (5 : Int)), ("B", "C", 3), ("A", "C", 10)]) "A"
      = true ∧
    Dijkstra (loadFromFile [("A", "B", (5 : Int)), ("B", "C", 3), ("A", "C", 10)])
      "A" "C" = some [("A", ((0 : Int), "")), ("B", ((5 : Int), "A")),
        ("C", ((8 : Int), "B"))] ∧
    (8 : Int) ≠ INTMAX ∧
    (∃ l legs,
      walkBack ([("A", ((0 : Int), "")), ("B", ((5 : Int), "A")),
        ("C", ((8 : Int), "B"))].length + 1)
        [("A", ((0 : Int), "")), ("B", ((5 : Int), "A")), ("C", ((8 : Int), "B"))]
        "C" = some l ∧
      legsOf (loadFromFile [("A", "B", (5 : Int)), ("B", "C", 3), ("A", "C", 10)])
        l.reverse = some legs ∧
      legsSum legs = 8) :=
  ⟨by unfold ValidRows; decide, by decide, by decide, by decide,
    C2_legs_sum [("A", "B", (5 : Int)), ("B", "C", 3), ("A", "C", 10)]
      (by unfold ValidRows; decide) "A" "C" "C" (by decide) _ (by decide) 8 "B"
      (by decide) (by decide)⟩

/-- Claim C8: the first-match scan of the reconstructor over the
ascending edge set reports exactly the weight the relaxation committed
to.  For every final record (x, (dx, u)) with a real predecessor u, the
scanned weight `legWeight` is an actual edge weight of u -> x and
satisfies du + weight = dx, where du is u's recorded distance — i.e. the
weight that produced the minimal distance, not an arbitrary parallel
edge's weight. -/
theorem C8_leg_weight (rows : List (String × String × Int))
    (hv : ValidRows rows) (s fin : String)
    (hs : hasNode (loadFromFile rows) s = true)
    (m : Paths) (hrun : Dijkstra (loadFromFile rows) s fin = some m)
    (x u : String) (dx : Int) (hlk : mlookup m x = some (dx, u)) (hu : u ≠ "") :
    ∃ du pu, mlookup m u = some (du, pu) ∧
      (x, legWeight (edgesOf (loadFromFile rows) u) x) ∈
        edgesOf (loadFromFile rows) u ∧
      du + legWeight (edgesOf (loadFromFile rows) u) x = dx := by
  have hg := gok_load hv hs
  obtain ⟨m', hrun', hdinv, hnt⟩ := dijkstra_run fin hg
  rw [hrun] at hrun'
  cases Option.some.inj hrun'
  rcases committed_weight hg hdinv hnt hlk hu with
    ⟨du, pu, w', hlku, hfind, hwm, hsum, hlw⟩
  exact ⟨du, pu, hlku, by rw [hlw]; exact hwm, by rw [hlw]; exact hsum⟩

/-- Witness for C8 on a graph with two parallel edges `A -> B` of
weights 3 and 7: the committed weight is 3 and the scan reports 3. -/
theorem C8_leg_weight_witness :
    ValidRows [("A", "B", (7 : Int)), ("A", "B", (3 : Int))] ∧
    hasNode (loadFromFile [("A", "B", (7 : Int)), ("A", "B", (3 : Int))]) "A"
      = true ∧
    Dijkstra (loadFromFile [("A", "B", (7 : Int)), ("A", "B", (3 : Int))]) "A" "B" =
      some [("A", ((0 : Int), "")), ("B", ((3 : Int), "A"))] ∧
    (∃ du pu,
      mlookup [("A", ((0 : Int), "")), ("B", ((3 : Int), "A"))] "A" = some (du, pu) ∧
      (("B", legWeight
        (edgesOf (loadFromFile [("A", "B", (7 : Int)), ("A", "B", (3 : Int))]) "A")
        "B") ∈
        edgesOf (loadFromFile [("A", "B", (7 : Int)), ("A", "B", (3 : Int))]) "A") ∧
      du + legWeight
        (edgesOf (loadFromFile [("A", "B", (7 : Int)), ("A", "B", (3 : Int))]) "A")
        "B" = 3) :=
  ⟨by unfold ValidRows; decide, by decide, by decide,
    C8_leg_weight [("A", "B", (7 : Int)), ("A", "B", (3 : Int))]
      (by unfold ValidRows; decide) "A" "B" (by decide) _ (by decide) "B" "A" 3
      (by decide) (by decide)⟩

/-- Claim C6: a query whose origin equals its destination, on a known
node, is classified as resolved with total distance 0 and an empty leg
list: the node's final record is (0, no predecessor), the backward walk
collects exactly [origin], the leg loop emits no legs, and the resolver
writes the resolved-form message with total 0 and no leg lines. -/
theorem C6_self_query (rows : List (String × String × Int))
    (hv : ValidRows rows) (s : String)
    (hs : hasNode (loadFromFile rows) s = true) :
    ∃ m, Dijkstra (loadFromFile rows) s s = some m ∧
      mlookup m s = some (0, "") ∧
      walkBack (m.length + 1) m s = some [s] ∧
      legsOf (loadFromFile rows) [s] = some [] ∧
      resolveQuery (loadFromFile rows) s s =
        some ("Trasa: " ++ s ++ " --> " ++ s ++ " (" ++ toString (0 : Int) ++
          " km):\n" ++ renderLegs [] ++ "\n") := by
  have hg := gok_load hv hs
  obtain ⟨m, hrun, hdinv, hnt⟩ := dijkstra_run s hg
  have hsne : s ≠ "" := noempty_hasNode hg.noempty hs
  have hch : PChain m s [s] := PChain.last hdinv.src0 rfl
  have hwalk : walkBack (m.length + 1) m s = some [s] :=
    walkBack_of_pchain hch (fun x hx => by
      rcases List.mem_singleton.mp hx with rfl
      exact hsne) (by simp)
  have hlegs : legsOf (loadFromFile rows) [s] = some [] := by rw [legsOf]
  have hmsg : createResultsMessage s s 0 (loadFromFile rows) m =
      some ("Trasa: " ++ s ++ " --> " ++ s ++ " (" ++ toString (0 : Int) ++
        " km):\n" ++ renderLegs [] ++ "\n") := by
    rw [createResultsMessage, hwalk]
    show (match legsOf (loadFromFile rows) ([s].reverse) with
      | none => none
      | some legs =>
        some ("Trasa: " ++ s ++ " --> " ++ s ++ " (" ++ toString (0 : Int) ++
          " km):\n" ++ renderLegs legs ++ "\n")) = _
    rw [List.reverse_singleton, hlegs]
  have hcount : resolveQueryCounted (loadFromFile rows) s s =
      (createResultsMessage s s 0 (loadFromFile rows) m, 1) := by
    rw [resolveQueryCounted, hrun]
    show (if (decide (hasNode (loadFromFile rows) s = false) ||
        decide (hasNode (loadFromFile rows) s = false)) = true
      then (some (brakMsg s s), 1)
      else
        let re := pathsGet m s
        if re.1.1 ≠ INTMAX then
          (createResultsMessage s s re.1.1 (loadFromFile rows) re.2, 1)
        else (some (niemozliwaMsg s s), 1)) = _
    rw [hs]
    rw [if_neg (by decide)]
    rw [pathsGet_present hdinv.src0]
    show (if ((0 : Int) ≠ INTMAX) then
        (createResultsMessage s s 0 (loadFromFile rows) m, 1)
      else (some (niemozliwaMsg s s), 1)) = _
    rw [if_pos (by decide)]
  refine ⟨m, hrun, hdinv.src0, hwalk, hlegs, ?_⟩
  rw [resolveQuery, hcount]
  exact hmsg

/-- Witness for C6: query `A A` on the spec scenario graph. -/
theorem C6_self_query_witness :
    ValidRows [("A", "B", (5 : Int)), ("B", "C", 3), ("A", "C", 10)] ∧
    hasNode (loadFromFile [("A", "B", (5 : Int)), ("B", "C", 3), ("A", "C", 10)]) "A"
      = true ∧
    (∃ m, Dijkstra (loadFromFile [("A", "B", (5 : Int)), ("B", "C", 3),
        ("A", "C", 10)]) "A" "A" = some m ∧
      mlookup m "A" = some (0, "") ∧
      walkBack (m.length + 1) m "A" = some ["A"] ∧
      legsOf (loadFromFile [("A", "B", (5 : Int)), ("B", "C", 3), ("A", "C", 10)])
        ["A"] = some [] ∧
      resolveQuery (loadFromFile [("A", "B", (5 : Int)), ("B", "C", 3),
        ("A", "C", 10)]) "A" "A" =
        some ("Trasa: " ++ "A" ++ " --> " ++ "A" ++ " (" ++ toString (0 : Int) ++
          " km):\n" ++ renderLegs [] ++ "\n")) :=
  ⟨by unfold ValidRows; decide, by decide,
    C6_self_query [("A", "B", (5 : Int)), ("B", "C", 3), ("A", "C", 10)]
      (by unfold ValidRows; decide) "A" (by decide)⟩

theorem dijkstra_unknown {g : Graph} {start fin : String}
    (h : hasNode g start = false) :
    Dijkstra g start fin = some (initPaths g start) := by
  have hlkg : lookupGraph g start = none := lookupGraph_none_of_not h
  rw [Dijkstra]
  rcases hfuel : dFuel g with _ | f
  · rw [dFuel] at hfuel
    omega
  · simp only [dijkstraLoop, hlkg]

theorem resolveQueryCounted_brak {g : Graph} {s e : String} {m : Paths}
    (hrun : Dijkstra g s e = some m)
    (h : hasNode g s = false ∨ hasNode g e = false) :
    resolveQueryCounted g s e = (some (brakMsg s e), 1) := by
  rcases h with h | h <;> simp [resolveQueryCounted, hrun, h]

theorem resolveQueryCounted_resolved {g : Graph} {s e : String} {m : Paths}
    {de : Int} {pe : String} (hrun : Dijkstra g s e = some m)
    (hs : hasNode g s = true) (he : hasNode g e = true)
    (hlk : mlookup m e = some (de, pe)) (hne : de ≠ INTMAX) :
    resolveQueryCounted g s e = (createResultsMessage s e de g m, 1) := by
  simp [resolveQueryCounted, hrun, hs, he, pathsGet_present hlk, hne]

theorem resolveQueryCounted_unreach {g : Graph} {s e : String} {m : Paths}
    {pe : String} (hrun : Dijkstra g s e = some m)
    (hs : hasNode g s = true) (he : hasNode g e = true)
    (hlk : mlookup m e = some (INTMAX, pe)) :
    resolveQueryCounted g s e = (some (niemozliwaMsg s e), 1) := by
  simp [resolveQueryCounted, hrun, hs, he, pathsGet_present hlk]

theorem resolveQuery_some {rows : List (String × String × Int)}
    (hv : ValidRows rows) (s e : String) :
    ∃ msg, resolveQueryCounted (loadFromFile rows) s e = (some msg, 1) := by
  by_cases hs : hasNode (loadFromFile rows) s = true
  · have hg := gok_load hv hs
    obtain ⟨m, hrun, hdinv, hnt⟩ := dijkstra_run e hg
    by_cases he : hasNode (loadFromFile rows) e = true
    · have hek : e ∈ keysOf m := by
        rw [hdinv.keys, ← hasNode_iff_mem_keys]
        exact he
      obtain ⟨⟨de, pe⟩, hlk⟩ := mem_keys_lookup hek
      by_cases hde : de = INTMAX
      · subst hde
        exact ⟨niemozliwaMsg s e, resolveQueryCounted_unreach hrun hs he hlk⟩
      · have hb : 0 ≤ de ∧ de ≤ INTMAX := hdinv.bounds _ (mlookup_mem hlk)
        have hdelt : de < INTMAX := by
          rcases hb with ⟨h1, h2⟩
          rcases lt_or_eq_of_le h2 with h | h
          · exact h
          · exact absurd h hde
        rcases createResultsMessage_some hg hdinv hnt hlk hdelt s de with ⟨msg, hmsg⟩
        refine ⟨msg, ?_⟩
        rw [resolveQueryCounted_resolved hrun hs he hlk hde, hmsg]
    · exact ⟨brakMsg s e, resolveQueryCounted_brak hrun
        (Or.inr (Bool.not_eq_true _ ▸ Bool.eq_false_iff.mpr he))⟩
  · have hs' : hasNode (loadFromFile rows) s = false := Bool.eq_false_iff.mpr hs
    exact ⟨brakMsg s e, resolveQueryCounted_brak (dijkstra_unknown hs') (Or.inl hs')⟩

theorem resolveQueries_length {rows : List (String × String × Int)}
    (hv : ValidRows rows) :
    ∀ (queries : List (String × String)),
    ∃ msgs, resolveQueries (loadFromFile rows) queries = some msgs ∧
      msgs.length = queries.length
  | [] => ⟨[], rfl, rfl⟩
  | (s, e) :: rest => by
    rcases resolveQuery_some hv s e with ⟨msg, hmsg⟩
    rcases resolveQueries_length hv rest with ⟨msgs, hmsgs, hlen⟩
    refine ⟨msg :: msgs, ?_, by simp [hlen]⟩
    rw [resolveQueries, resolveQuery, hmsg]
    show (resolveQueries (loadFromFile rows) rest).map (msg :: ·) = some (msg :: msgs)
    rw [hmsgs]
    rfl

/-- Claim C4, amended: when the frontier yields a node for which the
graph has no record, the run does terminate early (the break returns the
record map built so far, here still the initial one), but this is not a
fatal failure and is not surfaced: the batch continues and every query
in it still produces exactly one result message. -/
theorem C4_break_not_fatal (rows : List (String × String × Int))
    (hv : ValidRows rows) :
    (∀ start fin, hasNode (loadFromFile rows) start = false →
      Dijkstra (loadFromFile rows) start fin =
        some (initPaths (loadFromFile rows) start)) ∧
    (∀ queries : List (String × String),
      ∃ msgs, resolveQueries (loadFromFile rows) queries = some msgs ∧
        msgs.length = queries.length) :=
  ⟨fun _ _ h => dijkstra_unknown h, resolveQueries_length hv⟩

/-- Witness for the amended C4 on the graph from edge `A B 1`. -/
theorem C4_break_not_fatal_witness :
    ValidRows [("A", "B", (1 : Int))] ∧
    ((∀ start fin, hasNode (loadFromFile [("A", "B", (1 : Int))]) start = false →
      Dijkstra (loadFromFile [("A", "B", (1 : Int))]) start fin =
        some (initPaths (loadFromFile [("A", "B", (1 : Int))]) start)) ∧
    (∀ queries : List (String × String),
      ∃ msgs, resolveQueries (loadFromFile [("A", "B", (1 : Int))]) queries =
        some msgs ∧ msgs.length = queries.length)) :=
  ⟨by unfold ValidRows; decide,
    C4_break_not_fatal [("A", "B", (1 : Int))] (by unfold ValidRows; decide)⟩

/-- Counterexample to claim C4 as stated: on the graph from edge
`A B 1`, the batch `[(Z, A), (A, B)]` has its first query's run pop the
unknown node `Z` from the frontier (the defensive break fires), yet the
batch is not aborted and nothing fatal is surfaced: both queries produce
their per-query messages, the second one fully processed. -/
theorem C4_break_counterexample :
    hasNode (loadFromFile [("A", "B", (1 : Int))]) "Z" = false ∧
    resolveQueries (loadFromFile [("A", "B", (1 : Int))]) [("Z", "A"), ("A", "B")] =
      some ["Trasa: Z --> A (Brak informacji o polaczeniu)\n\n",
        "Trasa: A --> B (1 km):\nA --> B 1 km\n\n"] := by
  exact ⟨by decide, by decide⟩

/-- Claim C3, amended: a query with an unknown origin or destination is
always classified "Brak informacji o polaczeniu" regardless of the
other endpoint, but the engine is nevertheless invoked for the query
(line 230 runs before the node-existence check of line 232); its result
is merely ignored. -/
theorem C3_unknown_node_brak (rows : List (String × String × Int))
    (hv : ValidRows rows) (s e : String)
    (h : hasNode (loadFromFile rows) s = false ∨
      hasNode (loadFromFile rows) e = false) :
    resolveQueryCounted (loadFromFile rows) s e = (some (brakMsg s e), 1) := by
  by_cases hs : hasNode (loadFromFile rows) s = true
  · obtain ⟨m, hrun, _, _⟩ := dijkstra_run e (gok_load hv hs)
    exact resolveQueryCounted_brak hrun h
  · have hs' : hasNode (loadFromFile rows) s = false := Bool.eq_false_iff.mpr hs
    exact resolveQueryCounted_brak (dijkstra_unknown hs') (Or.inl hs')

/-- Witness for the amended C3: query `(Z, A)` on the graph from edge
`A B 1`. -/
theorem C3_unknown_node_brak_witness :
    ValidRows [("A", "B", (1 : Int))] ∧
    (hasNode (loadFromFile [("A", "B", (1 : Int))]) "Z" = false ∨
      hasNode (loadFromFile [("A", "B", (1 : Int))]) "A" = false) ∧
    resolveQueryCounted (loadFromFile [("A", "B", (1 : Int))]) "Z" "A" =
      (some (brakMsg "Z" "A"), 1) :=
  ⟨by unfold ValidRows; decide, Or.inl (by decide),
    C3_unknown_node_brak [("A", "B", (1 : Int))] (by unfold ValidRows; decide)
      "Z" "A" (Or.inl (by decide))⟩

/-- Counterexample to claim C3 as stated: for the unknown-origin query
`(Z, A)` the classification is indeed "Brak informacji o polaczeniu",
but the engine is invoked exactly once for the query (the invocation
count in the control-flow-faithful resolver is 1, not 0). -/
theorem C3_engine_invoked_counterexample :
    hasNode (loadFromFile [("A", "B", (1 : Int))]) "Z" = false ∧
    resolveQueryCounted (loadFromFile [("A", "B", (1 : Int))]) "Z" "A" =
      (some (brakMsg "Z" "A"), 1) ∧
    (1 : Nat) ≠ 0 :=
  ⟨by decide, by decide, by decide⟩

theorem qsorted_relaxOne (cur : String) (e : String × Int) (pq : Paths × Queue)
    (h : QSorted pq.2) : QSorted (relaxOne cur e pq).2 := by
  simp only [relaxOne]
  split
  · exact qsorted_qInsert h
  · exact h

theorem qsorted_relaxAll (cur : String) : ∀ (es : EdgeSet) (p : Paths) (q : Queue),
    QSorted q → QSorted (relaxAll cur es p q).2
  | [], _, _, h => h
  | e :: es, p, q, h => by
    have heq : relaxAll cur (e :: es) p q =
        relaxAll cur es (relaxOne cur e (p, q)).1 (relaxOne cur e (p, q)).2 := by
      rw [relaxAll, relaxAll, List.foldl_cons, Prod.mk.eta]
    rw [heq]
    exact qsorted_relaxAll cur es _ _ (qsorted_relaxOne cur e (p, q) h)

/-- Claim C7: the frontier is kept as the ordered set of (distance,
node-id) pairs with ties broken by the lexicographic node id (`qLtb`):
the seeded frontier is sorted, every relaxation pass preserves
sortedness (all insertions go through the ordered `qInsert`), and the
pair the loop pops — the head — is `qLtb`-least among all remaining
entries, so extraction order never depends on insertion order.  The
resolver is moreover a pure function of the graph and the query list,
so two runs over the same inputs produce identical results. -/
theorem C7_deterministic_tiebreak :
    (∀ s : String, QSorted [((0 : Int), s)]) ∧
    (∀ (cur : String) (es : EdgeSet) (p : Paths) (q : Queue),
      QSorted q → QSorted (relaxAll cur es p q).2) ∧
    (∀ (x : Int × String) (q : Queue), QSorted (x :: q) →
      ∀ y ∈ q, qLtb x y = true) ∧
    (∀ (g : Graph) (queries : List (String × String)),
      resolveQueries g queries = resolveQueries g queries) :=
  ⟨fun _ => List.pairwise_cons.mpr ⟨by simp, List.Pairwise.nil⟩,
    fun cur es p q h => qsorted_relaxAll cur es p q h,
    fun x q hs y hy => (List.pairwise_cons.mp hs).1 y hy,
    fun _ _ => rfl⟩

/-- Witness for C7 on concrete data: sorted seed, sortedness preserved
through a relaxation pass, and the head of a sorted two-element frontier
is the lex-least entry. -/
theorem C7_deterministic_tiebreak_witness :
    QSorted [((0 : Int), "A")] ∧
    QSorted (relaxAll "A" [("B", (1 : Int))]
      [("A", ((0 : Int), "")), ("B", (INTMAX, ""))] []).2 ∧
    (∀ y ∈ [((2 : Int), "B"), ((2 : Int), "C")],
      qLtb ((1 : Int), "Z") y = true) ∧
    resolveQueries [] [] = resolveQueries [] [] :=
  ⟨C7_deterministic_tiebreak.1 "A",
    C7_deterministic_tiebreak.2.1 "A" [("B", (1 : Int))]
      [("A", ((0 : Int), "")), ("B", (INTMAX, ""))] [] List.Pairwise.nil,
    C7_deterministic_tiebreak.2.2.1 ((1 : Int), "Z")
      [((2 : Int), "B"), ((2 : Int), "C")] (by unfold QSorted; decide),
    C7_deterministic_tiebreak.2.2.2 [] []⟩
